import Mathlib

/-!
# Verification of the FlagAttention flash-attention kernels

A shallow embedding of `src/flag_attn/flash.py`: the host entry points
(`FlashAttention.forward` / `FlashAttention.backward`) and the four Triton
kernels (`_fwd_kernel`, `_bwd_preprocess`, `_bwd_kv_kernel`, `_bwd_q_kernel`).

Modelling conventions:
* Machine floats are idealized as real numbers (`ℝ`); tensor slices for one
  (batch, head) pair are total functions `ℕ → ℕ → ℝ` (row index, feature
  index).  Cross-(batch, head) indexing is explicit in the claim theorems.
* The float value `-inf` produced by the masking `tl.where` calls and by the
  initialization `m_i = -inf` is modelled symbolically as `⊥ : WithBot ℝ`;
  `exp2` of a `⊥` score is `0`, matching `exp2 (-inf) = 0` for the kernels'
  positive `qk_scale`.
* Masked `tl.load`s deliver `0` for masked-out lanes (Triton's default
  `other` value), and masked `tl.store`s leave the destination untouched.
* Kernel grid instances are independent; each is modelled as a pure function
  of its inputs.  Per-row quantities (running max / sum / accumulator rows)
  are computed rowwise exactly as the kernels do, so one row of one grid
  instance is embedded as a fold over its tile loop.
-/

namespace FlagAttn

/-- `triton.cdiv`: ceiling division, the number of grid tiles covering `a`
rows with tile size `b` (also the trip count of `range(0, a, b)`). -/
def cdiv (a b : ℕ) : ℕ := (a + b - 1) / b

/-! ## Host-side model of `FlashAttention.forward` (flash.py lines 9-114)

The host function switches the CUDA device context (lines 10-13), runs the
two `assert` statements (lines 16-17), then allocates `o`, `L` and launches
`_fwd_kernel` (lines 90-103), and finally restores the device (line 113).
There is no validation of `N ≥ M` anywhere on this path: `P_SEQ = N - M` is
computed (line 21) and passed straight to the kernel.  When an `assert`
raises, execution aborts before the allocations, but also before the
device-restoring line 113. -/
/-- Observable outcome of one call to `FlashAttention.forward`. -/
structure FwdHostResult where
  /-- `false` when one of the `assert` statements raised. -/
  ok : Bool
  /-- the process-wide CUDA current device after the call returns or raises. -/
  finalDevice : ℕ
  /-- names of the tensors allocated by the call, in order. -/
  allocs : List String
  /-- names of the kernels launched by the call, in order. -/
  launches : List String
deriving Repr, DecidableEq

/-- `assert Dk in {16, 32, 64, 128}` (flash.py line 17). -/
def headDimSupported (d : ℕ) : Bool :=
  decide (d = 16) || decide (d = 32) || decide (d = 64) || decide (d = 128)

/-- The observable behaviour of `FlashAttention.forward` (flash.py lines
9-114) as a function of the head dims of `q`, `k`, `v`, the sequence
lengths `M = q.shape[2]`, `N = k.shape[2]`, the causal flag, the device of
`q` and the process-wide current device at entry.  Mirrors the source
statement by statement; the tile-size tuning (lines 24-81) only selects
launch constants and is irrelevant to the observable outcome. -/
def forwardHost (origDev qDev : ℕ) (Dq Dk Dv : ℕ) (M N : ℕ) (causal : Bool) :
    FwdHostResult :=
  -- line 13: torch.cuda.set_device(device_index); the current device is now qDev
  -- line 16: assert Dq == Dk == Dv
  if ¬ (Dq = Dk ∧ Dk = Dv) then ⟨false, qDev, [], []⟩
  -- line 17: assert Dk in {16, 32, 64, 128}
  else if ¬ (headDimSupported Dk = true) then ⟨false, qDev, [], []⟩
  else
    -- line 21: P_SEQ = N - M (no sign check, for any value of causal)
    -- lines 90-91: o = torch.empty_like(q); L = torch.empty((B, H, M), ...)
    -- lines 92-103: _fwd_kernel[grid](...)
    -- line 113: torch.cuda.set_device(orginal_device_index)
    let _ := causal
    let _ := M
    let _ := N
    ⟨true, origDev, ["o", "L"], ["_fwd_kernel"]⟩

/-! ## Masks of the Triton kernels that are pure index arithmetic -/
/-- Parameters shared by one kernel launch, for one (batch, head) slice.
`M` is the number of query rows (`N_CTX` inside the kernels), `P_SEQ` the
prefix length; the key/value length is `N = M + P_SEQ`.  The claims under
verification all concern `P_SEQ ≥ 0`, so `P_SEQ` is a natural number. -/
structure Params where
  M : ℕ
  P_SEQ : ℕ
  D : ℕ
  BLOCK_M : ℕ
  BLOCK_N : ℕ
  causal : Bool
  sm_scale : ℝ

/-- Key/value length `N = k.shape[2]`; inside the kernels this is
`N_CTX + P_SEQ`. -/
def Params.N (p : Params) : ℕ := p.M + p.P_SEQ

/-- `DIVISIBLE_M = M % BLOCK_M == 0` (flash.py line 83 / 175). -/
def Params.divM (p : Params) : Prop := p.M % p.BLOCK_M = 0

/-- `DIVISIBLE_N = N % BLOCK_N == 0` (flash.py line 84 / 176). -/
def Params.divN (p : Params) : Prop := p.N % p.BLOCK_N = 0

instance (p : Params) : Decidable p.divM := by unfold Params.divM; infer_instance

instance (p : Params) : Decidable p.divN := by unfold Params.divN; infer_instance

/-- Row mask of `_fwd_kernel` (flash.py lines 281-288): the load/store lanes
for global row `r` of the query tile `start_m` are enabled iff this holds.
The mask `offs_m < N_CTX` is materialized only for a non-divisible last
tile; other tiles are unmasked. -/
def fwdRowEnabled (p : Params) (start_m r : ℕ) : Prop :=
  if ¬ p.divM ∧ p.M < start_m * p.BLOCK_M + p.BLOCK_M then r < p.M else True

instance (p : Params) (start_m r : ℕ) : Decidable (fwdRowEnabled p start_m r) := by
  unfold fwdRowEnabled; infer_instance

/-- Row mask of `_bwd_q_kernel` (flash.py lines 612-619): identical tile
condition to the forward kernel, but the comparison is
`offs_m < N_CTX % BLOCK_M` instead of `offs_m < N_CTX`. -/
def bwdQRowEnabled (p : Params) (start_m r : ℕ) : Prop :=
  if ¬ p.divM ∧ p.M < start_m * p.BLOCK_M + p.BLOCK_M then r < p.M % p.BLOCK_M else True

instance (p : Params) (start_m r : ℕ) : Decidable (bwdQRowEnabled p start_m r) := by
  unfold bwdQRowEnabled; infer_instance

/-- Column mask of `_bwd_q_kernel`'s inner loop (flash.py lines 637-647):
for global key column `n` of the key tile starting at `start_n`, the k/v
load lanes and `valid_mask` are enabled iff this holds.  The comparison is
`offs_n < (N_CTX + P_SEQ) % BLOCK_N` instead of `offs_n < N_CTX + P_SEQ`. -/
def bwdQColEnabled (p : Params) (start_n n : ℕ) : Prop :=
  if ¬ p.divN ∧ p.N < start_n + p.BLOCK_N then n < p.N % p.BLOCK_N else True

instance (p : Params) (start_n n : ℕ) : Decidable (bwdQColEnabled p start_n n) := by
  unfold bwdQColEnabled; infer_instance

noncomputable section

/-! ## Real-valued embedding of `_fwd_kernel` (flash.py lines 234-361)

Grid instances are independent and rows of one query tile are computed
rowwise (running max / running sum / accumulator are per-row, `tl.dot`
rows are independent), so the kernel is embedded one query row at a time:
row `i` is handled by the instance `start_m = i / BLOCK_M`, and the key
loop `for start_n in range(0, hi, BLOCK_N)` becomes a fold over tile
indices `t = 0, 1, ...`. -/
/-- `tl.math.exp2`. -/
def exp2 (x : ℝ) : ℝ := Real.exp (x * Real.log 2)

/-- Idealized value of the literal `1.4426950408889634` (log₂ e, line 256). -/
def log2e : ℝ := (Real.log 2)⁻¹

/-- `qk_scale = sm_scale * log2e` (line 257). -/
def Params.qkScale (p : Params) : ℝ := p.sm_scale * log2e

/-- `sm_scale` resolution of the host wrapper (lines 85-86):
`if sm_scale is None: sm_scale = 1. / math.sqrt(D)`. -/
def resolveScale (smOpt : Option ℝ) (D : ℕ) : ℝ := smOpt.getD (1 / Real.sqrt D)

/-- Masked load of a query row (lines 281-291): the mask `offs_m < N_CTX`
is materialized only on a non-divisible last tile, and rows `i ≥ M` occur
only there, so the loaded lane value is pointwise `if i < M then Q i d
else 0` (masked-out lanes read 0). -/
def qload (p : Params) (Q : ℕ → ℕ → ℝ) (i d : ℕ) : ℝ :=
  if i < p.M then Q i d else 0

/-- Masked load of a K or V row (lines 318-329): lanes with column `j ≥ N`
read 0 when the launch is non-divisible in N; a divisible launch applies no
column mask (in that case columns `≥ N` are visited only inside fully
causally-masked tiles, and the loaded garbage is modelled by the total
function `T` itself). -/
def kvload (p : Params) (T : ℕ → ℕ → ℝ) (j d : ℕ) : ℝ :=
  if ¬ p.divN ∧ p.N ≤ j then 0 else T j d

/-- The pre-masking score `s = tl.dot(q, k)` of lines 332-333, from the
masked loads.  The dot-I trick of lines 294-298 multiplies `q` by an
identity matrix and is value-preserving, so it is omitted. -/
def sval (p : Params) (Q K : ℕ → ℕ → ℝ) (i j : ℕ) : ℝ :=
  ∑ d ∈ Finset.range p.D, qload p Q i d * kvload p K j d

/-- The raw score `Q[i]·K[j]` on the logical tensors (no load masking);
used on the specification side. -/
def sdot (p : Params) (Q K : ℕ → ℕ → ℝ) (i j : ℕ) : ℝ :=
  ∑ d ∈ Finset.range p.D, Q i d * K j d

/-- The masked score of lines 335-339: `tl.where(mask_n, s, -inf)` for a
non-divisible last column tile, then `tl.where(causal_mask, s, -inf)`
(the later causal `tl.where` wins, so it is the outer conditional here).
`⊥` models the float `-inf`. -/
def smasked (p : Params) (Q K : ℕ → ℕ → ℝ) (i j : ℕ) : WithBot ℝ :=
  if p.causal = true ∧ ¬ (j ≤ p.P_SEQ + i) then ⊥
  else if ¬ p.divN ∧ p.N ≤ j then ⊥
  else ((sval p Q K i j : ℝ) : WithBot ℝ)

/-- `alpha = tl.math.exp2((m_i - m_i_new) * qk_scale)` (line 343).  With
`m_i = ⊥` (float `-inf`) and a finite `m_i_new` this is `exp2 (-inf) = 0`
(`qk_scale > 0` for every launch the claims quantify over); the case of
both arguments `⊥` cannot arise for a row `i < M` of a valid launch (key 0
of the first tile is always unmasked) and gets the junk value 0, and
`m_i_new = ⊥` with `m_i` finite is impossible (`m_i_new = max m_i ...`). -/
def alphaVal (p : Params) (mo mn : WithBot ℝ) : ℝ :=
  WithBot.recBotCoe 0
    (fun a => WithBot.recBotCoe 1 (fun b => exp2 ((a - b) * p.qkScale)) mn) mo

/-- `p = tl.math.exp2(s * qk_scale - m_i_new * qk_scale)` (line 344),
pointwise: a `⊥` (`-inf`) score yields 0; `m_i_new = ⊥` with a finite
score is impossible and gets junk 0. -/
def pEntry (p : Params) (sm mn : WithBot ℝ) : ℝ :=
  WithBot.recBotCoe 0
    (fun s => WithBot.recBotCoe 0
      (fun b => exp2 (s * p.qkScale - b * p.qkScale)) mn) sm

/-- Per-row kernel state: running max `m_i`, running sum `l_i`, output
accumulator row `acc` (lines 276-279). -/
structure RowState where
  m : WithBot ℝ
  l : ℝ
  acc : ℕ → ℝ

/-- `m_i = -inf`, `l_i = 0`, `acc = 0` (lines 277-279). -/
def initRow : RowState := ⟨⊥, 0, fun _ => 0⟩

/-- Row max of the masked scores of key tile `t`, `tl.max(s, 1)`, as the
reduction with identity `-inf` (line 342). -/
def tileMax (p : Params) (Q K : ℕ → ℕ → ℝ) (i t : ℕ) : WithBot ℝ :=
  Finset.sup (Finset.range p.BLOCK_N) fun k => smasked p Q K i (t * p.BLOCK_N + k)

/-- One iteration of the key loop (lines 314-352) for query row `i`, key
tile `t` (`start_n = t * BLOCK_N`): `m_i_new = tl.maximum(m_i, tl.max(s,
1))`; `alpha`; `p`; `acc = acc * alpha + tl.dot(p, v)`; `l_i = l_i * alpha
+ tl.sum(p, 1)`; `m_i = m_i_new`. -/
def fwdStep (p : Params) (Q K V : ℕ → ℕ → ℝ) (i t : ℕ) (st : RowState) :
    RowState :=
  let mn := st.m ⊔ tileMax p Q K i t
  let pr : ℕ → ℝ := fun k => pEntry p (smasked p Q K i (t * p.BLOCK_N + k)) mn
  let al := alphaVal p st.m mn
  { m := mn
    l := st.l * al + ∑ k ∈ Finset.range p.BLOCK_N, pr k
    acc := fun d => st.acc d * al +
      ∑ k ∈ Finset.range p.BLOCK_N, pr k * kvload p V (t * p.BLOCK_N + k) d }

/-- State of row `i` after the first `t` iterations of the key loop. -/
def fwdLoop (p : Params) (Q K V : ℕ → ℕ → ℝ) (i : ℕ) : ℕ → RowState
  | 0 => initRow
  | t + 1 => fwdStep p Q K V i t (fwdLoop p Q K V i t)

/-- Loop bound `hi` (lines 305-308): `P_SEQ + (start_m + 1) * BLOCK_M` when
causal, else `N_CTX + P_SEQ = N`. -/
def hiFwd (p : Params) (start_m : ℕ) : ℕ :=
  if p.causal then p.P_SEQ + (start_m + 1) * p.BLOCK_M else p.M + p.P_SEQ

/-- Trip count of `for start_n in range(0, hi, BLOCK_N)` for the instance
owning row `i` (`start_m = i / BLOCK_M`). -/
def numTilesFwd (p : Params) (i : ℕ) : ℕ :=
  cdiv (hiFwd p (i / p.BLOCK_M)) p.BLOCK_N

/-- Final loop state of query row `i`. -/
def fwdFinal (p : Params) (Q K V : ℕ → ℕ → ℝ) (i : ℕ) : RowState :=
  fwdLoop p Q K V i (numTilesFwd p i)

/-- The stored output row: `acc * (1.0 / l_i)` (lines 358, 361). -/
def fwdO (p : Params) (Q K V : ℕ → ℕ → ℝ) (i d : ℕ) : ℝ :=
  (fwdFinal p Q K V i).acc d * (1 / (fwdFinal p Q K V i).l)

/-- The stored log-normalizer: `l = m_i * sm_scale + tl.log(l_i)` (lines
359-360).  A `⊥` running max (row with no unmasked key) cannot occur for a
stored row `i < M` and is mapped through the junk value `unbot' 0`. -/
def fwdL (p : Params) (Q K V : ℕ → ℕ → ℝ) (i : ℕ) : ℝ :=
  ((fwdFinal p Q K V i).m.unbot' 0) * p.sm_scale +
    Real.log (fwdFinal p Q K V i).l

/-! ### Specification-side softmax (from the spec text of §4.1) -/
/-- Position `(i, j)` is unmasked: `j` is an in-range key column and, under
causal masking, `global_key_index ≤ P_SEQ + global_query_index`. -/
def visible (p : Params) (i j : ℕ) : Prop :=
  j < p.N ∧ (p.causal = true → j ≤ p.P_SEQ + i)

instance (p : Params) (i j : ℕ) : Decidable (visible p i j) := by
  unfold visible; infer_instance

/-- The set of key columns visible to query row `i`. -/
def visSet (p : Params) (i : ℕ) : Finset ℕ :=
  (Finset.range p.N).filter (visible p i)

/-- The claimed output: `O[i,:] = Σ_n softmax_n(causal-masked(Q·Kᵀ·scale))
· V[n,:]`, written directly as a normalized sum over visible columns. -/
def softmaxSpec (p : Params) (Q K V : ℕ → ℕ → ℝ) (i d : ℕ) : ℝ :=
  (∑ j ∈ Finset.range p.N,
      if visible p i j then Real.exp (sdot p Q K i j * p.sm_scale) * V j d
      else 0) /
    (∑ j ∈ Finset.range p.N,
      if visible p i j then Real.exp (sdot p Q K i j * p.sm_scale) else 0)

/-! ### Streaming-softmax invariant of the forward key loop -/
/-- The raw score coerced into `WithBot ℝ`, fed to `Finset.sup`. -/
def csc (p : Params) (Q K : ℕ → ℕ → ℝ) (i j : ℕ) : WithBot ℝ :=
  ((sdot p Q K i j : ℝ) : WithBot ℝ)

/-- The visible key columns among the first `t` key tiles. -/
def Uvis (p : Params) (i t : ℕ) : Finset ℕ :=
  (Finset.range (t * p.BLOCK_N)).filter (visible p i)

/-- Real value of a sup of coerced scores (junk 0 for the empty sup). -/
def mTop (p : Params) (Q K : ℕ → ℕ → ℝ) (i : ℕ) (F : Finset ℕ) : ℝ :=
  (F.sup (csc p Q K i)).unbot' 0

/-- The L/O store of forward instance `start_m` covers global row `r`
(lines 357-361): `r` is one of the instance's `BLOCK_M` rows and the store
mask of lines 281-288 enables its lane. -/
def fwdWritesL (p : Params) (start_m r : ℕ) : Prop :=
  start_m * p.BLOCK_M ≤ r ∧ r < start_m * p.BLOCK_M + p.BLOCK_M ∧
    fwdRowEnabled p start_m r

/-! ## Embedding of `_bwd_kv_kernel`'s probability recomputation
(flash.py lines 410-553) -/
/-- Masked load of a per-row float buffer (`L` at line 517, `Delta` at
line 530) in the backward kernels: rows `≥ M` occur only under the
non-divisible last query tile's `mask_m`, so the lane reads 0 there. -/
def rowload (p : Params) (f : ℕ → ℝ) (m : ℕ) : ℝ := if m < p.M then f m else 0

/-- `valid_mask` of `_bwd_kv_kernel` (lines 469-502), pointwise at query
row `m`, key column `n`: for a non-divisible last query tile it is
`mask_m` alone — the source drops the `& mask_n` conjunct (line 496);
otherwise it is `mask_n`, itself materialized only for a non-divisible
last key tile. -/
def validMaskKV (p : Params) (m n : ℕ) : Prop :=
  if ¬ p.divM ∧ p.M < m / p.BLOCK_M * p.BLOCK_M + p.BLOCK_M
  then m < p.M
  else (¬ p.divN ∧ p.N < n / p.BLOCK_N * p.BLOCK_N + p.BLOCK_N) → n < p.N

instance (p : Params) (m n : ℕ) : Decidable (validMaskKV p m n) := by
  unfold validMaskKV; infer_instance

/-- The recomputed, zeroed probability of `_bwd_kv_kernel` (lines
505-523): `s = tl.dot(q, tl.trans(k))` from the masked loads, then
`p = tl.math.exp2(s * qk_scale - l * log2e)` with the loaded `L` and no
`-inf` masking of `s` (the commented-out lines 512-514), then
`tl.where(valid_mask, p, 0)` and, under causal, `tl.where(causal_mask, p,
0)`. -/
def bwdKVp (p : Params) (Q K : ℕ → ℕ → ℝ) (Lbuf : ℕ → ℝ) (m n : ℕ) : ℝ :=
  if p.causal = true then
    (if n ≤ p.P_SEQ + m then
      (if validMaskKV p m n
       then exp2 (sval p Q K m n * p.qkScale - rowload p Lbuf m * log2e)
       else 0)
     else 0)
  else
    (if validMaskKV p m n
     then exp2 (sval p Q K m n * p.qkScale - rowload p Lbuf m * log2e)
     else 0)

/-- The normalized probability with which the forward pass weighted
`V[n,:]` inside `O[m,:]`: `exp((s - m_final)·scale) / l_final` at visible
positions and 0 at masked ones. -/
def fwdProb (p : Params) (Q K V : ℕ → ℕ → ℝ) (m n : ℕ) : ℝ :=
  (if visible p m n
   then Real.exp ((sdot p Q K m n -
     (fwdFinal p Q K V m).m.unbot' 0) * p.sm_scale)
   else 0) / (fwdFinal p Q K V m).l

/-! ## Embedding of `_bwd_preprocess` (flash.py lines 365-407) -/
/-- Row mask of `_bwd_preprocess` (lines 391-398): same tile condition and
comparison (`off_m < M`) as the forward kernel's row mask. -/
def preRowEnabled (p : Params) (start_m r : ℕ) : Prop :=
  if ¬ p.divM ∧ p.M < start_m * p.BLOCK_M + p.BLOCK_M then r < p.M else True

instance (p : Params) (start_m r : ℕ) : Decidable (preRowEnabled p start_m r) := by
  unfold preRowEnabled; infer_instance

/-- `delta = tl.sum(o * do, axis=1)` (lines 400-404) from the masked row
loads of `Out` and `DO` (masked lanes read 0; rows `≥ M` occur only under
the mask of a non-divisible last tile, so the load is pointwise gated by
`r < M`). -/
def deltaVal (p : Params) (O DO : ℕ → ℕ → ℝ) (m : ℕ) : ℝ :=
  ∑ d ∈ Finset.range p.D, qload p O m d * qload p DO m d

/-- The Delta store of preprocess instance `start_m` covers global row `r`
(lines 406-407). -/
def preWritesDelta (p : Params) (start_m r : ℕ) : Prop :=
  start_m * p.BLOCK_M ≤ r ∧ r < start_m * p.BLOCK_M + p.BLOCK_M ∧
    preRowEnabled p start_m r

/-! ## Embedding of the `_bwd_kv_kernel` query-tile sweep
(flash.py lines 449-553) -/
/-- `lo` of `_bwd_kv_kernel` (lines 449-453) for key tile index `kt`
(`start_n = tl.program_id(0)`): integer arithmetic
`(max(start_n * BLOCK_N - P_SEQ, 0) // BLOCK_M) * BLOCK_M` under causal,
`0` otherwise. -/
def loKV (p : Params) (kt : ℕ) : ℤ :=
  if p.causal = true
  then max ((kt * p.BLOCK_N : ℤ) - (p.P_SEQ : ℤ)) 0 / (p.BLOCK_M : ℤ) *
    (p.BLOCK_M : ℤ)
  else 0

/-- `lo` as a natural number (the integer value is nonnegative). -/
def loKVn (p : Params) (kt : ℕ) : ℕ :=
  if p.causal = true
  then (kt * p.BLOCK_N - p.P_SEQ) / p.BLOCK_M * p.BLOCK_M
  else 0

/-- `dp = tl.dot(do, tl.trans(v))` (lines 529-532) from the masked loads
of `DO` (row mask) and `V` (column mask). -/
def dpKV (p : Params) (DO V : ℕ → ℕ → ℝ) (m n : ℕ) : ℝ :=
  ∑ d ∈ Finset.range p.D, qload p DO m d * kvload p V n d

/-- `ds = p * (dp - delta)` (line 535), then `tl.where(valid_mask, ds, 0)`
and, under causal, `tl.where(causal_mask, ds, 0)` (lines 537-540). -/
def dsKV (p : Params) (Q K V DO : ℕ → ℕ → ℝ) (Lbuf Dbuf : ℕ → ℝ)
    (m n : ℕ) : ℝ :=
  if p.causal = true then
    (if n ≤ p.P_SEQ + m then
      (if validMaskKV p m n
       then bwdKVp p Q K Lbuf m n * (dpKV p DO V m n - rowload p Dbuf m)
       else 0)
     else 0)
  else
    (if validMaskKV p m n
     then bwdKVp p Q K Lbuf m n * (dpKV p DO V m n - rowload p Dbuf m)
     else 0)

/-- One iteration of the query sweep (lines 487-548) for query tile offset
`sm`, acting on the `(dk, dv)` accumulators (each indexed by key column
and feature): `dv += tl.dot(tl.trans(p), do)` and
`dk += tl.dot(tl.trans(ds), q)`. -/
def kvStep (p : Params) (Q K V DO : ℕ → ℕ → ℝ) (Lbuf Dbuf : ℕ → ℝ)
    (sm : ℕ) (st : (ℕ → ℕ → ℝ) × (ℕ → ℕ → ℝ)) :
    (ℕ → ℕ → ℝ) × (ℕ → ℕ → ℝ) :=
  (fun n d => st.1 n d + ∑ k ∈ Finset.range p.BLOCK_M,
      dsKV p Q K V DO Lbuf Dbuf (sm + k) n * qload p Q (sm + k) d,
   fun n d => st.2 n d + ∑ k ∈ Finset.range p.BLOCK_M,
      bwdKVp p Q K Lbuf (sm + k) n * qload p DO (sm + k) d)

/-- `(dk, dv)` accumulators after `c` iterations of
`for start_m in range(start, N_CTX, BLOCK_M)` (initialized to zero at
lines 483-484). -/
def kvSweep (p : Params) (Q K V DO : ℕ → ℕ → ℝ) (Lbuf Dbuf : ℕ → ℝ)
    (start : ℕ) : ℕ → (ℕ → ℕ → ℝ) × (ℕ → ℕ → ℝ)
  | 0 => (fun _ _ => 0, fun _ _ => 0)
  | c + 1 => kvStep p Q K V DO Lbuf Dbuf (start + c * p.BLOCK_M)
      (kvSweep p Q K V DO Lbuf Dbuf start c)

/-! ## Embedding of `_bwd_q_kernel` (flash.py lines 556-693) -/
/-- Masked loads of q / do (lines 621-623) gated by the buggy row mask
`offs_m < N_CTX % BLOCK_M` of lines 612-619, pointwise at global row `r`
(whose tile is `r / BLOCK_M`). -/
def qloadQ (p : Params) (T : ℕ → ℕ → ℝ) (r d : ℕ) : ℝ :=
  if bwdQRowEnabled p (r / p.BLOCK_M) r then T r d else 0

/-- Masked loads of the per-row buffers delta / L (lines 624-625), gated
by the same buggy row mask. -/
def rowloadQ (p : Params) (f : ℕ → ℝ) (r : ℕ) : ℝ :=
  if bwdQRowEnabled p (r / p.BLOCK_M) r then f r else 0

/-- Masked loads of k / v (lines 650-651) gated by the buggy column mask
`offs_n < (N_CTX + P_SEQ) % BLOCK_N` of lines 637-647, pointwise at global
column `n` (whose tile offset is `n / BLOCK_N * BLOCK_N`). -/
def kvloadQ (p : Params) (T : ℕ → ℕ → ℝ) (n d : ℕ) : ℝ :=
  if bwdQColEnabled p (n / p.BLOCK_N * p.BLOCK_N) n then T n d else 0

/-- `s = tl.dot(q, tl.trans(k))` of `_bwd_q_kernel` (lines 656-657). -/
def sQ (p : Params) (Q K : ℕ → ℕ → ℝ) (r n : ℕ) : ℝ :=
  ∑ d ∈ Finset.range p.D, qloadQ p Q r d * kvloadQ p K n d

/-- `p = tl.math.exp2(s * qk_scale - l * log2e)` (line 665), unmasked. -/
def pQ (p : Params) (Q K : ℕ → ℕ → ℝ) (Lbuf : ℕ → ℝ) (r n : ℕ) : ℝ :=
  exp2 (sQ p Q K r n * p.qkScale - rowloadQ p Lbuf r * log2e)

/-- `dp = tl.dot(do, tl.trans(v))` (lines 668-669). -/
def dpQ (p : Params) (DO V : ℕ → ℕ → ℝ) (r n : ℕ) : ℝ :=
  ∑ d ∈ Finset.range p.D, qloadQ p DO r d * kvloadQ p V n d

/-- `ds = p * (dp - delta)` (line 678), then `tl.where(valid_mask, ds, 0)`
(valid_mask is the buggy column mask when materialized) and, under causal,
`tl.where(causal_mask, ds, 0)` (lines 681-684). -/
def dsQ (p : Params) (Q K V DO : ℕ → ℕ → ℝ) (Lbuf Dbuf : ℕ → ℝ)
    (r n : ℕ) : ℝ :=
  if p.causal = true then
    (if n ≤ p.P_SEQ + r then
      (if bwdQColEnabled p (n / p.BLOCK_N * p.BLOCK_N) n
       then pQ p Q K Lbuf r n * (dpQ p DO V r n - rowloadQ p Dbuf r)
       else 0)
     else 0)
  else
    (if bwdQColEnabled p (n / p.BLOCK_N * p.BLOCK_N) n
     then pQ p Q K Lbuf r n * (dpQ p DO V r n - rowloadQ p Dbuf r)
     else 0)

/-- Contribution of the key tile at offset `sn` to `dq[r, :]`:
`dq += tl.dot(ds, k)` (line 686). -/
def dqTile (p : Params) (Q K V DO : ℕ → ℕ → ℝ) (Lbuf Dbuf : ℕ → ℝ)
    (r d sn : ℕ) : ℝ :=
  ∑ k ∈ Finset.range p.BLOCK_N,
    dsQ p Q K V DO Lbuf Dbuf r (sn + k) * kvloadQ p K (sn + k) d

/-- The dq value computed by `_bwd_q_kernel` for row `r` (the loop of
lines 634-690 with bound `hi` of line 631 — identical to the forward
kernel's `hi` — followed by `dq *= sm_scale` at line 692). -/
def dqVal (p : Params) (Q K V DO : ℕ → ℕ → ℝ) (Lbuf Dbuf : ℕ → ℝ)
    (r d : ℕ) : ℝ :=
  (∑ t ∈ Finset.range (cdiv (hiFwd p (r / p.BLOCK_M)) p.BLOCK_N),
    dqTile p Q K V DO Lbuf Dbuf r d (t * p.BLOCK_N)) * p.sm_scale

/-- The dQ buffer after the launch: the host allocates it zeroed
(`dq = torch.zeros_like(q)`, line 210) and the kernel's store (line 693)
is gated by the same buggy row mask, so unstored rows stay 0. -/
def dqBuffer (p : Params) (Q K V DO : ℕ → ℕ → ℝ) (Lbuf Dbuf : ℕ → ℝ)
    (r d : ℕ) : ℝ :=
  if bwdQRowEnabled p (r / p.BLOCK_M) r
  then dqVal p Q K V DO Lbuf Dbuf r d
  else 0

end

theorem le_cdiv_mul (a b : ℕ) (hb : 0 < b) : a ≤ cdiv a b * b := by
  unfold cdiv
  rcases Nat.eq_zero_or_pos a with rfl | ha
  · exact Nat.zero_le _
  · have h1 : a + b - 1 = (a - 1) + b := by omega
    rw [h1, Nat.add_div_right _ hb]
    have h3 : ((a - 1) / b + 1) * b = b * ((a - 1) / b) + b := by ring
    have h4 := Nat.div_add_mod (a - 1) b
    have h5 := Nat.mod_lt (a - 1) hb
    rw [h3]
    omega

theorem cdiv_mul_of_dvd {a b : ℕ} (hb : 0 < b) (h : a % b = 0) :
    cdiv a b * b = a := by
  unfold cdiv
  obtain ⟨c, rfl⟩ : ∃ c, a = b * c :=
    ⟨a / b, (Nat.mul_div_cancel' (Nat.dvd_of_mod_eq_zero h)).symm⟩
  rcases Nat.eq_zero_or_pos c with rfl | hc
  · have h0 : b * 0 + b - 1 = b - 1 := by omega
    rw [h0, Nat.div_eq_of_lt (by omega), Nat.zero_mul, Nat.mul_zero]
  · have h1 : b * c + b - 1 = b * c + (b - 1) := by omega
    rw [h1, Nat.mul_add_div hb, Nat.div_eq_of_lt (by omega)]
    ring

theorem cdiv_add_mul_left {b : ℕ} (S r : ℕ) (hb : 0 < b) :
    cdiv (S * b + r) b = S + cdiv r b := by
  unfold cdiv
  have h1 : S * b + r + b - 1 = b * S + (r + b - 1) := by
    rw [Nat.mul_comm]; omega
  rw [h1, Nat.mul_add_div hb]

/-- A row `r` belongs to the query tile with index `r / BLOCK_M`; the tile
index is characterized by its row interval. -/
theorem tile_index_eq {BM sm r : ℕ}
    (h1 : sm * BM ≤ r) (h2 : r < sm * BM + BM) : r / BM = sm := by
  have h2' : r < (sm + 1) * BM := by
    have : (sm + 1) * BM = sm * BM + BM := by ring
    omega
  exact Nat.div_eq_of_lt_le h1 h2'

/-- C6 (claim as stated is false on the code): the concrete causal call with
`M = 2` query rows and `N = 1` key rows (negative prefix `P_SEQ = -1`),
supported head dim 16, is not rejected: the forward path runs its asserts
successfully and launches `_fwd_kernel`. -/
theorem claim_C6_counterexample :
    (forwardHost 0 0 16 16 16 2 1 true).ok = true ∧
    (forwardHost 0 0 16 16 16 2 1 true).launches = ["_fwd_kernel"] :=
  ⟨rfl, rfl⟩

/-- C6 (amended): `FlashAttention.forward` performs no validation of
`N ≥ M` under a causal request.  Any causal call whose head dims agree and
are in the supported set proceeds to allocate `o`, `L` and launch
`_fwd_kernel`, regardless of `N < M`. -/
theorem claim_C6 (origDev qDev D M N : ℕ)
    (hD : headDimSupported D = true) (_hNM : N < M) :
    (forwardHost origDev qDev D D D M N true).ok = true ∧
    (forwardHost origDev qDev D D D M N true).allocs = ["o", "L"] ∧
    (forwardHost origDev qDev D D D M N true).launches = ["_fwd_kernel"] := by
  unfold forwardHost
  simp [hD]

theorem claim_C6_witness :
    headDimSupported 16 = true ∧ (1 : ℕ) < 2 ∧
      ((forwardHost 0 0 16 16 16 2 1 true).ok = true ∧
       (forwardHost 0 0 16 16 16 2 1 true).allocs = ["o", "L"] ∧
       (forwardHost 0 0 16 16 16 2 1 true).launches = ["_fwd_kernel"]) :=
  ⟨by decide, by decide, claim_C6 0 0 16 2 1 (by decide) (by decide)⟩

/-- C7 (claim as stated is false on the code): a call with unsupported head
dim 8, issued while the process-wide current device is 0 for a tensor on
device 1, does fail at the assert, but leaves the current device switched
to 1 (the `torch.cuda.set_device` of line 13 is never undone because the
restoring line 113 is not reached) — observable state has changed. -/
theorem claim_C7_counterexample :
    (forwardHost 0 1 8 8 8 4 4 false).ok = false ∧
    (forwardHost 0 1 8 8 8 4 4 false).finalDevice ≠ 0 :=
  ⟨rfl, by decide⟩

/-- C7 (amended): whenever the head dimension is not in {16, 32, 64, 128}
or the last-axis sizes of Q, K, V are not all equal, the forward call fails
synchronously at an `assert` before any output allocation or kernel launch
(no tensor is allocated or written); however the process-wide CUDA current
device, switched to `q`'s device on entry, is not restored. -/
theorem claim_C7 (origDev qDev Dq Dk Dv M N : ℕ) (causal : Bool)
    (h : ¬ (Dq = Dk ∧ Dk = Dv) ∨ headDimSupported Dk = false) :
    (forwardHost origDev qDev Dq Dk Dv M N causal).ok = false ∧
    (forwardHost origDev qDev Dq Dk Dv M N causal).allocs = [] ∧
    (forwardHost origDev qDev Dq Dk Dv M N causal).launches = [] ∧
    (forwardHost origDev qDev Dq Dk Dv M N causal).finalDevice = qDev := by
  unfold forwardHost
  rcases h with h | h
  · simp [h]
  · by_cases h2 : Dq = Dk ∧ Dk = Dv
    · obtain ⟨rfl, rfl⟩ := h2
      simp [h]
    · simp [h2]

theorem claim_C7_witness :
    (headDimSupported 8 = false) ∧
      ((forwardHost 0 1 8 8 8 4 4 false).ok = false ∧
       (forwardHost 0 1 8 8 8 4 4 false).allocs = [] ∧
       (forwardHost 0 1 8 8 8 4 4 false).launches = [] ∧
       (forwardHost 0 1 8 8 8 4 4 false).finalDevice = 1) :=
  ⟨by decide, claim_C7 0 1 8 8 8 4 4 false (Or.inr (by decide))⟩

theorem exp2_qkScale (p : Params) (x : ℝ) :
    exp2 (x * p.qkScale) = Real.exp (x * p.sm_scale) := by
  unfold exp2 Params.qkScale log2e
  have h : Real.log 2 ≠ 0 := ne_of_gt (Real.log_pos (by norm_num))
  congr 1
  field_simp

theorem visible_iff (p : Params) (i j : ℕ) :
    visible p i j ↔ j < p.N ∧ (p.causal = true → j ≤ p.P_SEQ + i) :=
  Iff.rfl

theorem sup_ite_bot {α : Type*} [SemilatticeSup α] [OrderBot α]
    (s : Finset ℕ) (P : ℕ → Prop) [DecidablePred P] (f : ℕ → α) :
    (s.sup fun j => if P j then f j else ⊥) = (s.filter P).sup f := by
  induction s using Finset.induction_on with
  | empty => simp
  | @insert a s _ ih =>
      rw [Finset.sup_insert, Finset.filter_insert, ih]
      by_cases hP : P a
      · rw [if_pos hP, if_pos hP, Finset.sup_insert]
      · rw [if_neg hP, if_neg hP, bot_sup_eq]

theorem sval_eq_sdot (p : Params) (Q K : ℕ → ℕ → ℝ) {i j : ℕ}
    (hiM : i < p.M) (hjN : j < p.N) :
    sval p Q K i j = sdot p Q K i j := by
  unfold sval sdot qload kvload
  refine Finset.sum_congr rfl fun d _ => ?_
  rw [if_pos hiM, if_neg (fun hc => not_le.2 hjN hc.2)]

/-- On every key column the loop of a row `i < M` can visit, the masked
score is the raw score at visible positions and `-inf` elsewhere. -/
theorem smasked_eq (p : Params) (Q K : ℕ → ℕ → ℝ) {i j : ℕ}
    (hBN : 0 < p.BLOCK_N) (hiM : i < p.M)
    (hj : j < numTilesFwd p i * p.BLOCK_N) :
    smasked p Q K i j = if visible p i j then csc p Q K i j else ⊥ := by
  unfold smasked csc
  by_cases hc : p.causal = true
  · by_cases hcm : j ≤ p.P_SEQ + i
    · have hjN : j < p.N := by
        have : p.N = p.M + p.P_SEQ := rfl
        omega
      rw [if_neg (fun hh => hh.2 hcm), if_neg (fun hh => not_le.2 hjN hh.2),
        if_pos ((visible_iff p i j).2 ⟨hjN, fun _ => hcm⟩),
        sval_eq_sdot p Q K hiM hjN]
    · rw [if_pos ⟨hc, hcm⟩,
        if_neg (fun hv => hcm (((visible_iff p i j).1 hv).2 hc))]
  · have hhi : hiFwd p (i / p.BLOCK_M) = p.N := by
      unfold hiFwd Params.N
      rw [if_neg hc]
    by_cases hjN : j < p.N
    · rw [if_neg (fun hh => hc hh.1), if_neg (fun hh => not_le.2 hjN hh.2),
        if_pos ((visible_iff p i j).2 ⟨hjN, fun h => absurd h hc⟩),
        sval_eq_sdot p Q K hiM hjN]
    · have hnd : ¬ p.divN := by
        intro hd
        have hmul : numTilesFwd p i * p.BLOCK_N = p.N := by
          unfold numTilesFwd
          rw [hhi]
          exact cdiv_mul_of_dvd hBN hd
        omega
      rw [if_neg (fun hh => hc hh.1), if_pos ⟨hnd, not_lt.1 hjN⟩,
        if_neg (fun hv => hjN ((visible_iff p i j).1 hv).1)]

theorem Uvis_succ (p : Params) (i t : ℕ) :
    Uvis p i (t + 1) =
      Uvis p i t ∪
        (Finset.Ico (t * p.BLOCK_N) ((t + 1) * p.BLOCK_N)).filter
          (visible p i) := by
  unfold Uvis
  have hsplit : Finset.range ((t + 1) * p.BLOCK_N) =
      Finset.range (t * p.BLOCK_N) ∪
        Finset.Ico (t * p.BLOCK_N) ((t + 1) * p.BLOCK_N) := by
    rw [Finset.range_eq_Ico,
      Finset.Ico_union_Ico_eq_Ico (Nat.zero_le _)
        (mul_le_mul_right' (Nat.le_succ t) _)]
  rw [hsplit, Finset.filter_union]

theorem Uvis_tile_disjoint (p : Params) (i t : ℕ) :
    Disjoint (Uvis p i t)
      ((Finset.Ico (t * p.BLOCK_N) ((t + 1) * p.BLOCK_N)).filter
        (visible p i)) := by
  unfold Uvis
  rw [Finset.range_eq_Ico]
  exact Finset.disjoint_filter_filter
    (Finset.Ico_disjoint_Ico_consecutive 0 _ _)

/-- After all iterations, exactly the visible columns have been folded in. -/
theorem Uvis_top (p : Params) (i : ℕ) (hBM : 0 < p.BLOCK_M)
    (hBN : 0 < p.BLOCK_N) (_hiM : i < p.M) :
    Uvis p i (numTilesFwd p i) = visSet p i := by
  unfold Uvis visSet
  apply Finset.ext
  intro j
  simp only [Finset.mem_filter, Finset.mem_range]
  constructor
  · rintro ⟨_, hv⟩
    exact ⟨((visible_iff p i j).1 hv).1, hv⟩
  · rintro ⟨hjN, hv⟩
    refine ⟨?_, hv⟩
    have hhi : j < hiFwd p (i / p.BLOCK_M) := by
      unfold hiFwd
      by_cases hc : p.causal = true
      · rw [if_pos hc]
        have h1 : j ≤ p.P_SEQ + i := ((visible_iff p i j).1 hv).2 hc
        have h2 : (i / p.BLOCK_M + 1) * p.BLOCK_M =
            p.BLOCK_M * (i / p.BLOCK_M) + p.BLOCK_M := by ring
        have h3 := Nat.div_add_mod i p.BLOCK_M
        have h4 := Nat.mod_lt i hBM
        omega
      · rw [if_neg hc]
        have : p.N = p.M + p.P_SEQ := rfl
        omega
    exact lt_of_lt_of_le hhi (le_cdiv_mul _ _ hBN)

theorem alphaVal_coe_coe (p : Params) (a b : ℝ) :
    alphaVal p ↑a ↑b = exp2 ((a - b) * p.qkScale) := rfl

theorem pEntry_coe_coe (p : Params) (s b : ℝ) :
    pEntry p ↑s ↑b = exp2 (s * p.qkScale - b * p.qkScale) := rfl

theorem pEntry_bot (p : Params) (x : WithBot ℝ) : pEntry p ⊥ x = 0 := rfl

theorem alphaVal_exp (p : Params) (a b : ℝ) :
    alphaVal p ↑a ↑b = Real.exp ((a - b) * p.sm_scale) := by
  rw [alphaVal_coe_coe, exp2_qkScale]

theorem pEntry_exp (p : Params) (s b : ℝ) :
    pEntry p ↑s ↑b = Real.exp ((s - b) * p.sm_scale) := by
  rw [pEntry_coe_coe, ← sub_mul, exp2_qkScale]

/-- The row max of key tile `t` equals the sup of raw scores over the
tile's visible columns. -/
theorem tileMax_eq (p : Params) (Q K : ℕ → ℕ → ℝ) {i t : ℕ}
    (hBN : 0 < p.BLOCK_N) (hiM : i < p.M) (ht : t < numTilesFwd p i) :
    tileMax p Q K i t =
      ((Finset.Ico (t * p.BLOCK_N) ((t + 1) * p.BLOCK_N)).filter
        (visible p i)).sup (csc p Q K i) := by
  unfold tileMax
  have hval : ∀ k ∈ Finset.range p.BLOCK_N,
      smasked p Q K i (t * p.BLOCK_N + k) =
        if visible p i (t * p.BLOCK_N + k)
        then csc p Q K i (t * p.BLOCK_N + k) else ⊥ := by
    intro k hk
    apply smasked_eq p Q K hBN hiM
    have hk' : k < p.BLOCK_N := Finset.mem_range.1 hk
    have h1 : (t + 1) * p.BLOCK_N ≤ numTilesFwd p i * p.BLOCK_N :=
      mul_le_mul_right' ht _
    have h2 : (t + 1) * p.BLOCK_N = t * p.BLOCK_N + p.BLOCK_N := by ring
    omega
  rw [Finset.sup_congr rfl hval, sup_ite_bot]
  have himg : Finset.Ico (t * p.BLOCK_N) ((t + 1) * p.BLOCK_N) =
      (Finset.range p.BLOCK_N).image (fun k => t * p.BLOCK_N + k) := by
    rw [Finset.range_eq_Ico, Finset.image_add_left_Ico]
    have h2 : (t + 1) * p.BLOCK_N = t * p.BLOCK_N + p.BLOCK_N := by ring
    rw [h2, Nat.add_zero]
  rw [himg, Finset.filter_image, Finset.sup_image]
  rfl

/-- The sup of coerced scores over a nonempty finite set is a finite real. -/
theorem sup_csc_ne_bot (p : Params) (Q K : ℕ → ℕ → ℝ) (i : ℕ)
    {F : Finset ℕ} (hF : F.Nonempty) :
    ∃ b : ℝ, F.sup (csc p Q K i) = (b : WithBot ℝ) := by
  obtain ⟨j0, hj0⟩ := hF
  have hne : F.sup (csc p Q K i) ≠ ⊥ := by
    intro hbot
    exact WithBot.coe_ne_bot ((Finset.sup_eq_bot_iff _ _).1 hbot j0 hj0)
  obtain ⟨b, hb⟩ := WithBot.ne_bot_iff_exists.1 hne
  exact ⟨b, hb.symm⟩

/-- Invariant of the forward key loop: after `t` iterations the running
max is the max raw score over the visible columns seen so far, the running
sum is the sum of `exp((s - max)·scale)` over them, and the accumulator
row is the same sum weighted by the V rows. -/
theorem fwdInv (p : Params) (Q K V : ℕ → ℕ → ℝ) (i : ℕ)
    (hBN : 0 < p.BLOCK_N) (hiM : i < p.M) :
    ∀ t, t ≤ numTilesFwd p i →
      (fwdLoop p Q K V i t).m = (Uvis p i t).sup (csc p Q K i) ∧
      (fwdLoop p Q K V i t).l = (∑ j ∈ Uvis p i t,
        Real.exp ((sdot p Q K i j - mTop p Q K i (Uvis p i t)) * p.sm_scale)) ∧
      ∀ d, (fwdLoop p Q K V i t).acc d = ∑ j ∈ Uvis p i t,
        Real.exp ((sdot p Q K i j - mTop p Q K i (Uvis p i t)) * p.sm_scale) *
          V j d := by
  intro t
  induction t with
  | zero =>
      intro _
      refine ⟨?_, ?_, fun d => ?_⟩ <;>
        simp [fwdLoop, initRow, Uvis]
  | succ t ih =>
      intro ht
      obtain ⟨ihm, ihl, ihacc⟩ := ih (Nat.le_of_succ_le ht)
      have htlt : t < numTilesFwd p i := ht
      set U : Finset ℕ := Uvis p i t with hU
      set TV : Finset ℕ :=
        (Finset.Ico (t * p.BLOCK_N) ((t + 1) * p.BLOCK_N)).filter
          (visible p i) with hTV
      have hsplit : Uvis p i (t + 1) = U ∪ TV := Uvis_succ p i t
      have hdisj : Disjoint U TV := Uvis_tile_disjoint p i t
      have htm : tileMax p Q K i t = TV.sup (csc p Q K i) :=
        tileMax_eq p Q K hBN hiM htlt
      have hmn : (fwdLoop p Q K V i t).m ⊔ tileMax p Q K i t =
          (U ∪ TV).sup (csc p Q K i) := by
        rw [ihm, htm, Finset.sup_union]
      have hstep : fwdLoop p Q K V i (t + 1) =
          fwdStep p Q K V i t (fwdLoop p Q K V i t) := rfl
      -- membership facts about tile columns
      have hmem : ∀ k, k < p.BLOCK_N → visible p i (t * p.BLOCK_N + k) →
          t * p.BLOCK_N + k ∈ TV := by
        intro k hk hv
        rw [hTV]
        refine Finset.mem_filter.2 ⟨Finset.mem_Ico.2 ⟨Nat.le_add_right _ _, ?_⟩, hv⟩
        have h2 : (t + 1) * p.BLOCK_N = t * p.BLOCK_N + p.BLOCK_N := by ring
        omega
      by_cases hne : (U ∪ TV).Nonempty
      · obtain ⟨B, hB⟩ := sup_csc_ne_bot p Q K i hne
        have hmnB : (fwdLoop p Q K V i t).m ⊔ tileMax p Q K i t = (B : WithBot ℝ) := by
          rw [hmn, hB]
        have hmTopB : mTop p Q K i (U ∪ TV) = B := by
          unfold mTop
          rw [hB, WithBot.unbot'_coe]
        -- the p entries of this tile
        have hprk : ∀ k ∈ Finset.range p.BLOCK_N,
            pEntry p (smasked p Q K i (t * p.BLOCK_N + k))
                ((fwdLoop p Q K V i t).m ⊔ tileMax p Q K i t) =
              (if visible p i (t * p.BLOCK_N + k)
               then Real.exp ((sdot p Q K i (t * p.BLOCK_N + k) - B) *
                 p.sm_scale) else 0) := by
          intro k hk
          have hk' : k < p.BLOCK_N := Finset.mem_range.1 hk
          have hjlt : t * p.BLOCK_N + k < numTilesFwd p i * p.BLOCK_N := by
            have h1 : (t + 1) * p.BLOCK_N ≤ numTilesFwd p i * p.BLOCK_N :=
              mul_le_mul_right' htlt _
            have h2 : (t + 1) * p.BLOCK_N = t * p.BLOCK_N + p.BLOCK_N := by ring
            omega
          rw [smasked_eq p Q K hBN hiM hjlt, hmnB]
          by_cases hv : visible p i (t * p.BLOCK_N + k)
          · rw [if_pos hv, if_pos hv]
            unfold csc
            exact pEntry_exp p _ B
          · rw [if_neg hv, if_neg hv, pEntry_bot]
        -- sum of p entries against an arbitrary per-column weight
        have hsum : ∀ w : ℕ → ℝ,
            (∑ k ∈ Finset.range p.BLOCK_N,
              pEntry p (smasked p Q K i (t * p.BLOCK_N + k))
                ((fwdLoop p Q K V i t).m ⊔ tileMax p Q K i t) *
                w (t * p.BLOCK_N + k)) =
              ∑ j ∈ TV, Real.exp ((sdot p Q K i j - B) * p.sm_scale) * w j := by
          intro w
          have h1 : (∑ k ∈ Finset.range p.BLOCK_N,
              pEntry p (smasked p Q K i (t * p.BLOCK_N + k))
                ((fwdLoop p Q K V i t).m ⊔ tileMax p Q K i t) *
                w (t * p.BLOCK_N + k)) =
              ∑ k ∈ Finset.range p.BLOCK_N,
                (if visible p i (t * p.BLOCK_N + k)
                 then Real.exp ((sdot p Q K i (t * p.BLOCK_N + k) - B) *
                   p.sm_scale) * w (t * p.BLOCK_N + k) else 0) := by
            refine Finset.sum_congr rfl fun k hk => ?_
            rw [hprk k hk]
            by_cases hv : visible p i (t * p.BLOCK_N + k)
            · rw [if_pos hv, if_pos hv]
            · rw [if_neg hv, if_neg hv, zero_mul]
          rw [h1]
          have h2 : (∑ j ∈ Finset.Ico (t * p.BLOCK_N) ((t + 1) * p.BLOCK_N),
              (if visible p i j
               then Real.exp ((sdot p Q K i j - B) * p.sm_scale) * w j
               else 0)) =
              ∑ k ∈ Finset.range p.BLOCK_N,
                (if visible p i (t * p.BLOCK_N + k)
                 then Real.exp ((sdot p Q K i (t * p.BLOCK_N + k) - B) *
                   p.sm_scale) * w (t * p.BLOCK_N + k) else 0) := by
            rw [Finset.sum_Ico_eq_sum_range]
            have h3 : (t + 1) * p.BLOCK_N - t * p.BLOCK_N = p.BLOCK_N := by
              have h4 : (t + 1) * p.BLOCK_N = t * p.BLOCK_N + p.BLOCK_N := by
                ring
              omega
            rw [h3]
          rw [← h2, hTV, Finset.sum_filter]
        refine ⟨?_, ?_, fun d => ?_⟩
        · rw [hstep]
          show (fwdLoop p Q K V i t).m ⊔ tileMax p Q K i t = _
          rw [hmn, hsplit]
        · -- running sum
          rw [hstep, hsplit, hmTopB]
          show (fwdLoop p Q K V i t).l *
              alphaVal p (fwdLoop p Q K V i t).m
                ((fwdLoop p Q K V i t).m ⊔ tileMax p Q K i t) +
              (∑ k ∈ Finset.range p.BLOCK_N,
                pEntry p (smasked p Q K i (t * p.BLOCK_N + k))
                  ((fwdLoop p Q K V i t).m ⊔ tileMax p Q K i t)) = _
          have hones := hsum fun _ => 1
          simp only [mul_one] at hones
          rw [hones, Finset.sum_union hdisj]
          congr 1
          -- old mass rescales from exponent base mTop U to base B
          by_cases hUe : U.Nonempty
          · obtain ⟨A, hA⟩ := sup_csc_ne_bot p Q K i hUe
            have hmTopA : mTop p Q K i U = A := by
              unfold mTop
              rw [hA, WithBot.unbot'_coe]
            rw [ihl, hmTopA, hmnB, ihm, hA, alphaVal_exp p A B,
              Finset.sum_mul]
            refine Finset.sum_congr rfl fun j _ => ?_
            rw [← Real.exp_add]
            congr 1
            ring
          · have hUemp : U = ∅ := Finset.not_nonempty_iff_eq_empty.1 hUe
            rw [ihl, hUemp]
            simp
        · -- accumulator
          rw [hstep, hsplit, hmTopB]
          show (fwdLoop p Q K V i t).acc d *
              alphaVal p (fwdLoop p Q K V i t).m
                ((fwdLoop p Q K V i t).m ⊔ tileMax p Q K i t) +
              (∑ k ∈ Finset.range p.BLOCK_N,
                pEntry p (smasked p Q K i (t * p.BLOCK_N + k))
                  ((fwdLoop p Q K V i t).m ⊔ tileMax p Q K i t) *
                  kvload p V (t * p.BLOCK_N + k) d) = _
          have hw := hsum fun j => kvload p V j d
          rw [hw, Finset.sum_union hdisj]
          have hTVload : (∑ j ∈ TV,
              Real.exp ((sdot p Q K i j - B) * p.sm_scale) *
                kvload p V j d) =
              ∑ j ∈ TV, Real.exp ((sdot p Q K i j - B) * p.sm_scale) * V j d := by
            refine Finset.sum_congr rfl fun j hj => ?_
            have hv : visible p i j := (Finset.mem_filter.1 (hTV ▸ hj)).2
            have hjN : j < p.N := ((visible_iff p i j).1 hv).1
            unfold kvload
            rw [if_neg (fun hc => not_le.2 hjN hc.2)]
          rw [hTVload]
          congr 1
          by_cases hUe : U.Nonempty
          · obtain ⟨A, hA⟩ := sup_csc_ne_bot p Q K i hUe
            have hmTopA : mTop p Q K i U = A := by
              unfold mTop
              rw [hA, WithBot.unbot'_coe]
            rw [ihacc d, hmTopA, hmnB, ihm, hA, alphaVal_exp p A B,
              Finset.sum_mul]
            refine Finset.sum_congr rfl fun j _ => ?_
            rw [mul_right_comm, ← Real.exp_add]
            congr 2
            ring
          · have hUemp : U = ∅ := Finset.not_nonempty_iff_eq_empty.1 hUe
            rw [ihacc d, hUemp]
            simp
      · -- no visible column seen yet and none in this tile
        have hUemp : U = ∅ ∧ TV = ∅ := by
          have := Finset.not_nonempty_iff_eq_empty.1 hne
          exact Finset.union_eq_empty.1 this
        have hprk0 : ∀ k ∈ Finset.range p.BLOCK_N,
            pEntry p (smasked p Q K i (t * p.BLOCK_N + k))
                ((fwdLoop p Q K V i t).m ⊔ tileMax p Q K i t) = 0 := by
          intro k hk
          have hk' : k < p.BLOCK_N := Finset.mem_range.1 hk
          have hjlt : t * p.BLOCK_N + k < numTilesFwd p i * p.BLOCK_N := by
            have h1 : (t + 1) * p.BLOCK_N ≤ numTilesFwd p i * p.BLOCK_N :=
              mul_le_mul_right' htlt _
            have h2 : (t + 1) * p.BLOCK_N = t * p.BLOCK_N + p.BLOCK_N := by ring
            omega
          have hnv : ¬ visible p i (t * p.BLOCK_N + k) := by
            intro hv
            have := hmem k hk' hv
            rw [hUemp.2] at this
            exact absurd this (Finset.not_mem_empty _)
          rw [smasked_eq p Q K hBN hiM hjlt, if_neg hnv, pEntry_bot]
        refine ⟨?_, ?_, fun d => ?_⟩
        · rw [hstep]
          show (fwdLoop p Q K V i t).m ⊔ tileMax p Q K i t = _
          rw [hmn, hsplit]
        · rw [hstep, hsplit, hUemp.1, hUemp.2]
          show (fwdLoop p Q K V i t).l *
              alphaVal p (fwdLoop p Q K V i t).m
                ((fwdLoop p Q K V i t).m ⊔ tileMax p Q K i t) +
              (∑ k ∈ Finset.range p.BLOCK_N,
                pEntry p (smasked p Q K i (t * p.BLOCK_N + k))
                  ((fwdLoop p Q K V i t).m ⊔ tileMax p Q K i t)) = _
          rw [Finset.sum_congr rfl hprk0, ihl, hUemp.1]
          simp
        · rw [hstep, hsplit, hUemp.1, hUemp.2]
          show (fwdLoop p Q K V i t).acc d *
              alphaVal p (fwdLoop p Q K V i t).m
                ((fwdLoop p Q K V i t).m ⊔ tileMax p Q K i t) +
              (∑ k ∈ Finset.range p.BLOCK_N,
                pEntry p (smasked p Q K i (t * p.BLOCK_N + k))
                  ((fwdLoop p Q K V i t).m ⊔ tileMax p Q K i t) *
                  kvload p V (t * p.BLOCK_N + k) d) = _
          have h0 : (∑ k ∈ Finset.range p.BLOCK_N,
              pEntry p (smasked p Q K i (t * p.BLOCK_N + k))
                ((fwdLoop p Q K V i t).m ⊔ tileMax p Q K i t) *
                kvload p V (t * p.BLOCK_N + k) d) = 0 := by
            refine Finset.sum_eq_zero fun k hk => ?_
            rw [hprk0 k hk, zero_mul]
          rw [h0, ihacc d, hUemp.1]
          simp

theorem visSet_zero_mem (p : Params) (i : ℕ) (hiM : i < p.M) :
    0 ∈ visSet p i := by
  unfold visSet
  have hN : p.N = p.M + p.P_SEQ := rfl
  exact Finset.mem_filter.2 ⟨Finset.mem_range.2 (by omega),
    (visible_iff p i 0).2 ⟨by omega, fun _ => Nat.zero_le _⟩⟩

theorem fwdFinal_m (p : Params) (Q K V : ℕ → ℕ → ℝ) (i : ℕ)
    (hBM : 0 < p.BLOCK_M) (hBN : 0 < p.BLOCK_N) (hiM : i < p.M) :
    (fwdFinal p Q K V i).m = (visSet p i).sup (csc p Q K i) := by
  have h := (fwdInv p Q K V i hBN hiM (numTilesFwd p i) le_rfl).1
  rw [fwdFinal, h, Uvis_top p i hBM hBN hiM]

theorem fwdFinal_l (p : Params) (Q K V : ℕ → ℕ → ℝ) (i : ℕ)
    (hBM : 0 < p.BLOCK_M) (hBN : 0 < p.BLOCK_N) (hiM : i < p.M) :
    (fwdFinal p Q K V i).l = ∑ j ∈ visSet p i,
      Real.exp ((sdot p Q K i j - mTop p Q K i (visSet p i)) * p.sm_scale) := by
  have h := (fwdInv p Q K V i hBN hiM (numTilesFwd p i) le_rfl).2.1
  rw [fwdFinal, h, Uvis_top p i hBM hBN hiM]

theorem fwdFinal_acc (p : Params) (Q K V : ℕ → ℕ → ℝ) (i : ℕ)
    (hBM : 0 < p.BLOCK_M) (hBN : 0 < p.BLOCK_N) (hiM : i < p.M) (d : ℕ) :
    (fwdFinal p Q K V i).acc d = ∑ j ∈ visSet p i,
      Real.exp ((sdot p Q K i j - mTop p Q K i (visSet p i)) * p.sm_scale) *
        V j d := by
  have h := (fwdInv p Q K V i hBN hiM (numTilesFwd p i) le_rfl).2.2 d
  rw [fwdFinal, h, Uvis_top p i hBM hBN hiM]

theorem fwdFinal_l_pos (p : Params) (Q K V : ℕ → ℕ → ℝ) (i : ℕ)
    (hBM : 0 < p.BLOCK_M) (hBN : 0 < p.BLOCK_N) (hiM : i < p.M) :
    0 < (fwdFinal p Q K V i).l := by
  rw [fwdFinal_l p Q K V i hBM hBN hiM]
  exact Finset.sum_pos (fun j _ => Real.exp_pos _)
    ⟨0, visSet_zero_mem p i hiM⟩

/-- C1: for every shape with `N = M + P_SEQ`, `P_SEQ ≥ 0`, every causal
flag and scale factor (defaulting to `1/√D` when not supplied), every
batch `b`, head `h` and query row `m < M`: the kernel forces the logit to
`-inf` exactly at positions with `global_key_index > P_SEQ +
global_query_index` (under causal) and at out-of-range columns, and the
stored output row is the causal-masked, scaled softmax combination of the
V rows. -/
theorem claim_C1 (p : Params) (smOpt : Option ℝ)
    (_hscale : p.sm_scale = resolveScale smOpt p.D)
    (Q K V : ℕ → ℕ → ℕ → ℕ → ℝ) (b h m d : ℕ)
    (hBM : 0 < p.BLOCK_M) (hBN : 0 < p.BLOCK_N) (hm : m < p.M) :
    (∀ j, j < numTilesFwd p m * p.BLOCK_N →
      (smasked p (Q b h) (K b h) m j = ⊥ ↔ ¬ visible p m j)) ∧
    fwdO p (Q b h) (K b h) (V b h) m d =
      softmaxSpec p (Q b h) (K b h) (V b h) m d := by
  constructor
  · intro j hj
    rw [smasked_eq p _ _ hBN hm hj]
    by_cases hv : visible p m j
    · rw [if_pos hv]
      simp [csc, hv]
    · rw [if_neg hv]
      simp [hv]
  · unfold fwdO softmaxSpec
    rw [fwdFinal_acc p _ _ _ m hBM hBN hm d, fwdFinal_l p _ _ _ m hBM hBN hm]
    have hfilter1 : (∑ j ∈ Finset.range p.N,
        if visible p m j
        then Real.exp (sdot p (Q b h) (K b h) m j * p.sm_scale) * V b h j d
        else 0) =
        ∑ j ∈ visSet p m,
          Real.exp (sdot p (Q b h) (K b h) m j * p.sm_scale) * V b h j d := by
      unfold visSet
      rw [Finset.sum_filter]
    have hfilter2 : (∑ j ∈ Finset.range p.N,
        if visible p m j
        then Real.exp (sdot p (Q b h) (K b h) m j * p.sm_scale) else 0) =
        ∑ j ∈ visSet p m,
          Real.exp (sdot p (Q b h) (K b h) m j * p.sm_scale) := by
      unfold visSet
      rw [Finset.sum_filter]
    rw [hfilter1, hfilter2]
    have hE : ∀ j, Real.exp (sdot p (Q b h) (K b h) m j * p.sm_scale) =
        Real.exp ((sdot p (Q b h) (K b h) m j -
          mTop p (Q b h) (K b h) m (visSet p m)) * p.sm_scale) *
          Real.exp (mTop p (Q b h) (K b h) m (visSet p m) * p.sm_scale) := by
      intro j
      rw [← Real.exp_add]
      congr 1
      ring
    have hnum : (∑ j ∈ visSet p m,
        Real.exp (sdot p (Q b h) (K b h) m j * p.sm_scale) * V b h j d) =
        (∑ j ∈ visSet p m,
          Real.exp ((sdot p (Q b h) (K b h) m j -
            mTop p (Q b h) (K b h) m (visSet p m)) * p.sm_scale) * V b h j d) *
          Real.exp (mTop p (Q b h) (K b h) m (visSet p m) * p.sm_scale) := by
      rw [Finset.sum_mul]
      refine Finset.sum_congr rfl fun j _ => ?_
      rw [hE j]
      ring
    have hden : (∑ j ∈ visSet p m,
        Real.exp (sdot p (Q b h) (K b h) m j * p.sm_scale)) =
        (∑ j ∈ visSet p m,
          Real.exp ((sdot p (Q b h) (K b h) m j -
            mTop p (Q b h) (K b h) m (visSet p m)) * p.sm_scale)) *
          Real.exp (mTop p (Q b h) (K b h) m (visSet p m) * p.sm_scale) := by
      rw [Finset.sum_mul]
      exact Finset.sum_congr rfl fun j _ => hE j
    rw [hnum, hden, mul_div_mul_right _ _ (Real.exp_ne_zero _), mul_one_div]

theorem claim_C1_witness :
    ((0 : ℕ) < 1) ∧
    ((∀ j, j < numTilesFwd ⟨1, 0, 1, 1, 1, false, resolveScale (some 1) 1⟩ 0 *
          (1 : ℕ) →
        (smasked ⟨1, 0, 1, 1, 1, false, resolveScale (some 1) 1⟩
            ((fun _ _ _ _ => (0 : ℝ)) 0 0) ((fun _ _ _ _ => (0 : ℝ)) 0 0) 0 j = ⊥ ↔
          ¬ visible ⟨1, 0, 1, 1, 1, false, resolveScale (some 1) 1⟩ 0 j)) ∧
      fwdO ⟨1, 0, 1, 1, 1, false, resolveScale (some 1) 1⟩
          ((fun _ _ _ _ => (0 : ℝ)) 0 0) ((fun _ _ _ _ => (0 : ℝ)) 0 0)
          ((fun _ _ _ _ => (0 : ℝ)) 0 0) 0 0 =
        softmaxSpec ⟨1, 0, 1, 1, 1, false, resolveScale (some 1) 1⟩
          ((fun _ _ _ _ => (0 : ℝ)) 0 0) ((fun _ _ _ _ => (0 : ℝ)) 0 0)
          ((fun _ _ _ _ => (0 : ℝ)) 0 0) 0 0) :=
  ⟨Nat.one_pos,
    claim_C1 ⟨1, 0, 1, 1, 1, false, resolveScale (some 1) 1⟩ (some 1) rfl
      (fun _ _ _ _ => (0 : ℝ)) (fun _ _ _ _ => (0 : ℝ)) (fun _ _ _ _ => (0 : ℝ))
      0 0 0 0 Nat.one_pos Nat.one_pos Nat.one_pos⟩

/-- Congruence of the masked score under changes confined to causally
masked key rows (requires causal masking to be on). -/
theorem smasked_congr (p : Params) (Q K K2 : ℕ → ℕ → ℝ) (i : ℕ)
    (hc : p.causal = true)
    (hK : ∀ j, j ≤ p.P_SEQ + i → ∀ d, K j d = K2 j d) :
    ∀ j, smasked p Q K i j = smasked p Q K2 i j := by
  intro j
  unfold smasked
  by_cases hcm : j ≤ p.P_SEQ + i
  · have hs : sval p Q K i j = sval p Q K2 i j := by
      unfold sval kvload
      refine Finset.sum_congr rfl fun d _ => ?_
      by_cases hcnd : ¬ p.divN ∧ p.N ≤ j
      · rw [if_pos hcnd, if_pos hcnd]
      · rw [if_neg hcnd, if_neg hcnd, hK j hcm d]
    rw [hs]
  · rw [if_pos ⟨hc, hcm⟩, if_pos ⟨hc, hcm⟩]

/-- A causally masked position contributes a zero `p` entry (its masked
score is `-inf`). -/
theorem pEntry_masked (p : Params) (Q K : ℕ → ℕ → ℝ) (i j : ℕ)
    (hc : p.causal = true) (hcm : ¬ j ≤ p.P_SEQ + i) (x : WithBot ℝ) :
    pEntry p (smasked p Q K i j) x = 0 := by
  unfold smasked
  rw [if_pos ⟨hc, hcm⟩, pEntry_bot]

/-- Loop-state congruence behind claim C3: under causal masking, the whole
per-row state trajectory is unchanged when K and V change only at rows
`j > P_SEQ + i`. -/
theorem fwdLoop_congr_masked (p : Params) (Q K V K2 V2 : ℕ → ℕ → ℝ) (i : ℕ)
    (hc : p.causal = true)
    (hK : ∀ j, j ≤ p.P_SEQ + i → ∀ d, K j d = K2 j d)
    (hV : ∀ j, j ≤ p.P_SEQ + i → ∀ d, V j d = V2 j d) :
    ∀ t, (fwdLoop p Q K V i t).m = (fwdLoop p Q K2 V2 i t).m ∧
      (fwdLoop p Q K V i t).l = (fwdLoop p Q K2 V2 i t).l ∧
      ∀ d, (fwdLoop p Q K V i t).acc d = (fwdLoop p Q K2 V2 i t).acc d := by
  have hsm := smasked_congr p Q K K2 i hc hK
  intro t
  induction t with
  | zero => exact ⟨rfl, rfl, fun _ => rfl⟩
  | succ t ih =>
      obtain ⟨ihm, ihl, ihacc⟩ := ih
      have htm : tileMax p Q K i t = tileMax p Q K2 i t := by
        unfold tileMax
        exact Finset.sup_congr rfl fun k _ => hsm _
      have hmn : (fwdLoop p Q K V i t).m ⊔ tileMax p Q K i t =
          (fwdLoop p Q K2 V2 i t).m ⊔ tileMax p Q K2 i t := by
        rw [ihm, htm]
      refine ⟨?_, ?_, fun d => ?_⟩
      · show (fwdLoop p Q K V i t).m ⊔ tileMax p Q K i t =
          (fwdLoop p Q K2 V2 i (t + 1)).m
        rw [hmn]
        rfl
      · show (fwdLoop p Q K V i t).l *
            alphaVal p (fwdLoop p Q K V i t).m
              ((fwdLoop p Q K V i t).m ⊔ tileMax p Q K i t) +
            (∑ k ∈ Finset.range p.BLOCK_N,
              pEntry p (smasked p Q K i (t * p.BLOCK_N + k))
                ((fwdLoop p Q K V i t).m ⊔ tileMax p Q K i t)) =
          (fwdLoop p Q K2 V2 i (t + 1)).l
        rw [hmn, ihl, ihm]
        have hps : ∀ k ∈ Finset.range p.BLOCK_N,
            pEntry p (smasked p Q K i (t * p.BLOCK_N + k))
              ((fwdLoop p Q K2 V2 i t).m ⊔ tileMax p Q K2 i t) =
            pEntry p (smasked p Q K2 i (t * p.BLOCK_N + k))
              ((fwdLoop p Q K2 V2 i t).m ⊔ tileMax p Q K2 i t) :=
          fun k _ => by rw [hsm]
        rw [Finset.sum_congr rfl hps]
        rfl
      · show (fwdLoop p Q K V i t).acc d *
            alphaVal p (fwdLoop p Q K V i t).m
              ((fwdLoop p Q K V i t).m ⊔ tileMax p Q K i t) +
            (∑ k ∈ Finset.range p.BLOCK_N,
              pEntry p (smasked p Q K i (t * p.BLOCK_N + k))
                ((fwdLoop p Q K V i t).m ⊔ tileMax p Q K i t) *
                kvload p V (t * p.BLOCK_N + k) d) =
          (fwdLoop p Q K2 V2 i (t + 1)).acc d
        rw [hmn, ihacc d, ihm]
        have hps : ∀ k ∈ Finset.range p.BLOCK_N,
            pEntry p (smasked p Q K i (t * p.BLOCK_N + k))
              ((fwdLoop p Q K2 V2 i t).m ⊔ tileMax p Q K2 i t) *
              kvload p V (t * p.BLOCK_N + k) d =
            pEntry p (smasked p Q K2 i (t * p.BLOCK_N + k))
              ((fwdLoop p Q K2 V2 i t).m ⊔ tileMax p Q K2 i t) *
              kvload p V2 (t * p.BLOCK_N + k) d := by
          intro k _
          by_cases hcm : t * p.BLOCK_N + k ≤ p.P_SEQ + i
          · have hload : kvload p V (t * p.BLOCK_N + k) d =
                kvload p V2 (t * p.BLOCK_N + k) d := by
              unfold kvload
              by_cases hcnd : ¬ p.divN ∧ p.N ≤ t * p.BLOCK_N + k
              · rw [if_pos hcnd, if_pos hcnd]
              · rw [if_neg hcnd, if_neg hcnd, hV _ hcm d]
            rw [hsm _, hload]
          · rw [pEntry_masked p Q K i _ hc hcm,
              pEntry_masked p Q K2 i _ hc hcm, zero_mul, zero_mul]
        rw [Finset.sum_congr rfl hps]
        rfl

/-- C3: under causal masking, the stored `O[b,h,i,:]` and `L[b,h,i]` are
identical between two runs whose K and V agree at all key rows
`j ≤ P_SEQ + i` (i.e. runs that differ only at causally masked rows
`j > P_SEQ + i`): masked positions never influence the running max,
running sum or accumulator of row `i`. -/
theorem claim_C3 (p : Params) (Q K V K2 V2 : ℕ → ℕ → ℕ → ℕ → ℝ) (b h i : ℕ)
    (hc : p.causal = true) (_hm : i < p.M)
    (hK : ∀ j, j ≤ p.P_SEQ + i → ∀ d, K b h j d = K2 b h j d)
    (hV : ∀ j, j ≤ p.P_SEQ + i → ∀ d, V b h j d = V2 b h j d) :
    (∀ d, fwdO p (Q b h) (K b h) (V b h) i d =
      fwdO p (Q b h) (K2 b h) (V2 b h) i d) ∧
    fwdL p (Q b h) (K b h) (V b h) i =
      fwdL p (Q b h) (K2 b h) (V2 b h) i := by
  have hfin := fwdLoop_congr_masked p (Q b h) (K b h) (V b h) (K2 b h)
    (V2 b h) i hc hK hV (numTilesFwd p i)
  have hfm : (fwdFinal p (Q b h) (K b h) (V b h) i).m =
      (fwdFinal p (Q b h) (K2 b h) (V2 b h) i).m := hfin.1
  have hfl : (fwdFinal p (Q b h) (K b h) (V b h) i).l =
      (fwdFinal p (Q b h) (K2 b h) (V2 b h) i).l := hfin.2.1
  have hfacc : ∀ d, (fwdFinal p (Q b h) (K b h) (V b h) i).acc d =
      (fwdFinal p (Q b h) (K2 b h) (V2 b h) i).acc d := hfin.2.2
  constructor
  · intro d
    unfold fwdO
    rw [hfacc d, hfl]
  · unfold fwdL
    rw [hfm, hfl]

theorem claim_C3_witness :
    (⟨2, 1, 1, 1, 1, true, 1⟩ : Params).causal = true ∧ (0 : ℕ) < 2 ∧
    ((∀ d, fwdO ⟨2, 1, 1, 1, 1, true, 1⟩ ((fun _ _ _ _ => (0 : ℝ)) 0 0)
        ((fun _ _ _ _ => (0 : ℝ)) 0 0) ((fun _ _ _ _ => (0 : ℝ)) 0 0) 0 d =
      fwdO ⟨2, 1, 1, 1, 1, true, 1⟩ ((fun _ _ _ _ => (0 : ℝ)) 0 0)
        ((fun _ _ j _ => if 2 ≤ j then (1 : ℝ) else 0) 0 0)
        ((fun _ _ j _ => if 2 ≤ j then (1 : ℝ) else 0) 0 0) 0 d) ∧
    fwdL ⟨2, 1, 1, 1, 1, true, 1⟩ ((fun _ _ _ _ => (0 : ℝ)) 0 0)
        ((fun _ _ _ _ => (0 : ℝ)) 0 0) ((fun _ _ _ _ => (0 : ℝ)) 0 0) 0 =
      fwdL ⟨2, 1, 1, 1, 1, true, 1⟩ ((fun _ _ _ _ => (0 : ℝ)) 0 0)
        ((fun _ _ j _ => if 2 ≤ j then (1 : ℝ) else 0) 0 0)
        ((fun _ _ j _ => if 2 ≤ j then (1 : ℝ) else 0) 0 0) 0) := by
  refine ⟨rfl, by decide,
    claim_C3 ⟨2, 1, 1, 1, 1, true, 1⟩ (fun _ _ _ _ => (0 : ℝ))
      (fun _ _ _ _ => (0 : ℝ)) (fun _ _ _ _ => (0 : ℝ))
      (fun _ _ j _ => if 2 ≤ j then (1 : ℝ) else 0)
      (fun _ _ j _ => if 2 ≤ j then (1 : ℝ) else 0) 0 0 0 rfl (by decide)
      ?_ ?_⟩
  · intro j hj d
    have hj2 : j ≤ 1 := hj
    show (0 : ℝ) = if 2 ≤ j then (1 : ℝ) else 0
    rw [if_neg (by omega)]
  · intro j hj d
    have hj2 : j ≤ 1 := hj
    show (0 : ℝ) = if 2 ≤ j then (1 : ℝ) else 0
    rw [if_neg (by omega)]

/-- C8: for every row `m < M` the stored `L[b,h,m]` equals
`running_max * scale + ln(running_sum)` where the final streaming stats
are the max and the max-shifted exponential sum over exactly the visited
unmasked key positions of row `m`; and within the forward grid, row `m` of
L is covered by the store of exactly one instance (`start_m = m /
BLOCK_M`).  (The backward kernels of this embedding are pure functions
that only read L.) -/
theorem claim_C8 (p : Params) (Q K V : ℕ → ℕ → ℕ → ℕ → ℝ) (b h m : ℕ)
    (hBM : 0 < p.BLOCK_M) (hBN : 0 < p.BLOCK_N) (hm : m < p.M) :
    (∃ mx : ℝ,
      (visSet p m).sup (csc p (Q b h) (K b h) m) = (mx : WithBot ℝ) ∧
      fwdL p (Q b h) (K b h) (V b h) m =
        mx * p.sm_scale +
          Real.log (∑ j ∈ visSet p m,
            Real.exp ((sdot p (Q b h) (K b h) m j - mx) * p.sm_scale))) ∧
    fwdWritesL p (m / p.BLOCK_M) m ∧
    (∀ sm, sm < cdiv p.M p.BLOCK_M → fwdWritesL p sm m →
      sm = m / p.BLOCK_M) := by
  refine ⟨?_, ⟨Nat.div_mul_le_self m _, ?_, ?_⟩, ?_⟩
  · obtain ⟨mx, hmx⟩ := sup_csc_ne_bot p (Q b h) (K b h) m
      ⟨0, visSet_zero_mem p m hm⟩
    refine ⟨mx, hmx, ?_⟩
    unfold fwdL
    rw [fwdFinal_m p _ _ _ m hBM hBN hm, hmx, WithBot.unbot'_coe,
      fwdFinal_l p _ _ _ m hBM hBN hm]
    have hmTop : mTop p (Q b h) (K b h) m (visSet p m) = mx := by
      unfold mTop
      rw [hmx, WithBot.unbot'_coe]
    rw [hmTop]
  · have hc : m / p.BLOCK_M * p.BLOCK_M = p.BLOCK_M * (m / p.BLOCK_M) :=
      Nat.mul_comm _ _
    have hdm := Nat.div_add_mod m p.BLOCK_M
    have hml := Nat.mod_lt m hBM
    omega
  · by_cases hcond : ¬ p.divM ∧ p.M < m / p.BLOCK_M * p.BLOCK_M + p.BLOCK_M
    · unfold fwdRowEnabled
      rw [if_pos hcond]
      exact hm
    · unfold fwdRowEnabled
      rw [if_neg hcond]
      trivial
  · intro sm _ hw
    exact (tile_index_eq hw.1 hw.2.1).symm

theorem claim_C8_witness :
    (0 : ℕ) < 1 ∧
    ((∃ mx : ℝ,
      (visSet ⟨1, 0, 1, 1, 1, false, 1⟩ 0).sup
          (csc ⟨1, 0, 1, 1, 1, false, 1⟩ ((fun _ _ _ _ => (0 : ℝ)) 0 0)
            ((fun _ _ _ _ => (0 : ℝ)) 0 0) 0) = (mx : WithBot ℝ) ∧
      fwdL ⟨1, 0, 1, 1, 1, false, 1⟩ ((fun _ _ _ _ => (0 : ℝ)) 0 0)
          ((fun _ _ _ _ => (0 : ℝ)) 0 0) ((fun _ _ _ _ => (0 : ℝ)) 0 0) 0 =
        mx * (⟨1, 0, 1, 1, 1, false, 1⟩ : Params).sm_scale +
          Real.log (∑ j ∈ visSet ⟨1, 0, 1, 1, 1, false, 1⟩ 0,
            Real.exp ((sdot ⟨1, 0, 1, 1, 1, false, 1⟩
                ((fun _ _ _ _ => (0 : ℝ)) 0 0) ((fun _ _ _ _ => (0 : ℝ)) 0 0)
                0 j - mx) *
              (⟨1, 0, 1, 1, 1, false, 1⟩ : Params).sm_scale))) ∧
    fwdWritesL ⟨1, 0, 1, 1, 1, false, 1⟩ (0 / 1) 0 ∧
    (∀ sm, sm < cdiv 1 1 → fwdWritesL ⟨1, 0, 1, 1, 1, false, 1⟩ sm 0 →
      sm = 0 / 1)) :=
  ⟨Nat.one_pos,
    claim_C8 ⟨1, 0, 1, 1, 1, false, 1⟩ (fun _ _ _ _ => (0 : ℝ))
      (fun _ _ _ _ => (0 : ℝ)) (fun _ _ _ _ => (0 : ℝ)) 0 0 0
      Nat.one_pos Nat.one_pos Nat.one_pos⟩

theorem exp2_qk_sub_log2e (p : Params) (x y : ℝ) :
    exp2 (x * p.qkScale - y * log2e) = Real.exp (x * p.sm_scale - y) := by
  unfold exp2 Params.qkScale log2e
  have h : Real.log 2 ≠ 0 := ne_of_gt (Real.log_pos (by norm_num))
  congr 1
  field_simp

/-- C2: the probability recomputed by the backward KV kernel as
`exp2(s·qk_scale − L·log2e)` — with the same causal and boundary zeroing
and no `-inf` masking of `s` — equals, at every in-range query row and key
column, the normalized forward probability `exp((s − m)·scale)/l`, and
those are exactly the weights with which the forward pass formed `O`. -/
theorem claim_C2 (p : Params) (Q K V : ℕ → ℕ → ℕ → ℕ → ℝ) (b h m n : ℕ)
    (hBM : 0 < p.BLOCK_M) (hBN : 0 < p.BLOCK_N)
    (hm : m < p.M) (hn : n < p.N) :
    bwdKVp p (Q b h) (K b h)
        (fun r => fwdL p (Q b h) (K b h) (V b h) r) m n =
      fwdProb p (Q b h) (K b h) (V b h) m n ∧
    ∀ d, fwdO p (Q b h) (K b h) (V b h) m d =
      ∑ j ∈ Finset.range p.N,
        fwdProb p (Q b h) (K b h) (V b h) m j * V b h j d := by
  obtain ⟨mx, hmx⟩ := sup_csc_ne_bot p (Q b h) (K b h) m
    ⟨0, visSet_zero_mem p m hm⟩
  have hunb : (fwdFinal p (Q b h) (K b h) (V b h) m).m.unbot' 0 = mx := by
    rw [fwdFinal_m p _ _ _ m hBM hBN hm, hmx, WithBot.unbot'_coe]
  have hmTop : mTop p (Q b h) (K b h) m (visSet p m) = mx := by
    unfold mTop
    rw [hmx, WithBot.unbot'_coe]
  have hlpos : 0 < (fwdFinal p (Q b h) (K b h) (V b h) m).l :=
    fwdFinal_l_pos p _ _ _ m hBM hBN hm
  have hvalid : validMaskKV p m n := by
    unfold validMaskKV
    by_cases hcond : ¬ p.divM ∧ p.M < m / p.BLOCK_M * p.BLOCK_M + p.BLOCK_M
    · rw [if_pos hcond]
      exact hm
    · rw [if_neg hcond]
      exact fun _ => hn
  have hL : rowload p (fun r => fwdL p (Q b h) (K b h) (V b h) r) m =
      fwdL p (Q b h) (K b h) (V b h) m := by
    unfold rowload
    rw [if_pos hm]
  have hsv : sval p (Q b h) (K b h) m n = sdot p (Q b h) (K b h) m n :=
    sval_eq_sdot p _ _ hm hn
  have hexp : exp2 (sval p (Q b h) (K b h) m n * p.qkScale -
      rowload p (fun r => fwdL p (Q b h) (K b h) (V b h) r) m * log2e) =
      Real.exp ((sdot p (Q b h) (K b h) m n - mx) * p.sm_scale) /
        (fwdFinal p (Q b h) (K b h) (V b h) m).l := by
    rw [exp2_qk_sub_log2e, hsv, hL]
    unfold fwdL
    rw [hunb]
    have harg : sdot p (Q b h) (K b h) m n * p.sm_scale -
        (mx * p.sm_scale +
          Real.log (fwdFinal p (Q b h) (K b h) (V b h) m).l) =
        (sdot p (Q b h) (K b h) m n - mx) * p.sm_scale -
          Real.log (fwdFinal p (Q b h) (K b h) (V b h) m).l := by
      ring
    rw [harg, Real.exp_sub, Real.exp_log hlpos]
  constructor
  · unfold bwdKVp fwdProb
    rw [hunb]
    by_cases hc : p.causal = true
    · rw [if_pos hc]
      by_cases hcm : n ≤ p.P_SEQ + m
      · rw [if_pos hcm, if_pos hvalid, hexp,
          if_pos ((visible_iff p m n).2 ⟨hn, fun _ => hcm⟩)]
      · rw [if_neg hcm,
          if_neg (fun hv => hcm (((visible_iff p m n).1 hv).2 hc)),
          zero_div]
    · rw [if_neg hc, if_pos hvalid, hexp,
        if_pos ((visible_iff p m n).2 ⟨hn, fun hcc => absurd hcc hc⟩)]
  · intro d
    unfold fwdO fwdProb
    rw [fwdFinal_acc p _ _ _ m hBM hBN hm d, hmTop, hunb]
    have hterm : ∀ j ∈ Finset.range p.N,
        (if visible p m j
         then Real.exp ((sdot p (Q b h) (K b h) m j - mx) * p.sm_scale)
         else 0) / (fwdFinal p (Q b h) (K b h) (V b h) m).l * V b h j d =
        (if visible p m j
         then Real.exp ((sdot p (Q b h) (K b h) m j - mx) * p.sm_scale) *
           V b h j d
         else 0) / (fwdFinal p (Q b h) (K b h) (V b h) m).l := by
      intro j _
      by_cases hv : visible p m j
      · rw [if_pos hv, if_pos hv, div_mul_eq_mul_div]
      · rw [if_neg hv, if_neg hv, zero_div, zero_mul]
    rw [Finset.sum_congr rfl hterm, ← Finset.sum_div]
    have hfilter : (∑ j ∈ Finset.range p.N,
        if visible p m j
        then Real.exp ((sdot p (Q b h) (K b h) m j - mx) * p.sm_scale) *
          V b h j d
        else 0) =
        ∑ j ∈ visSet p m,
          Real.exp ((sdot p (Q b h) (K b h) m j - mx) * p.sm_scale) *
            V b h j d := by
      unfold visSet
      rw [Finset.sum_filter]
    rw [hfilter, mul_one_div]

theorem claim_C2_witness :
    (0 : ℕ) < 1 ∧ (0 : ℕ) < 1 ∧
    (bwdKVp ⟨1, 0, 1, 1, 1, false, 1⟩ ((fun _ _ _ _ => (0 : ℝ)) 0 0)
        ((fun _ _ _ _ => (0 : ℝ)) 0 0)
        (fun r => fwdL ⟨1, 0, 1, 1, 1, false, 1⟩
          ((fun _ _ _ _ => (0 : ℝ)) 0 0) ((fun _ _ _ _ => (0 : ℝ)) 0 0)
          ((fun _ _ _ _ => (0 : ℝ)) 0 0) r) 0 0 =
      fwdProb ⟨1, 0, 1, 1, 1, false, 1⟩ ((fun _ _ _ _ => (0 : ℝ)) 0 0)
        ((fun _ _ _ _ => (0 : ℝ)) 0 0) ((fun _ _ _ _ => (0 : ℝ)) 0 0) 0 0 ∧
    ∀ d, fwdO ⟨1, 0, 1, 1, 1, false, 1⟩ ((fun _ _ _ _ => (0 : ℝ)) 0 0)
        ((fun _ _ _ _ => (0 : ℝ)) 0 0) ((fun _ _ _ _ => (0 : ℝ)) 0 0) 0 d =
      ∑ j ∈ Finset.range (⟨1, 0, 1, 1, 1, false, 1⟩ : Params).N,
        fwdProb ⟨1, 0, 1, 1, 1, false, 1⟩ ((fun _ _ _ _ => (0 : ℝ)) 0 0)
            ((fun _ _ _ _ => (0 : ℝ)) 0 0) ((fun _ _ _ _ => (0 : ℝ)) 0 0) 0 j *
          (fun _ _ _ _ => (0 : ℝ)) 0 0 j d) :=
  ⟨Nat.one_pos, Nat.one_pos,
    claim_C2 ⟨1, 0, 1, 1, 1, false, 1⟩ (fun _ _ _ _ => (0 : ℝ))
      (fun _ _ _ _ => (0 : ℝ)) (fun _ _ _ _ => (0 : ℝ)) 0 0 0 0
      Nat.one_pos Nat.one_pos Nat.one_pos Nat.one_pos⟩

/-- C10: for every batch, head and row `m < M`, the preprocess kernel
computes `Delta[b,h,m] = Σ_d O[b,h,m,d] · dO[b,h,m,d]`; the row is covered
by the store of exactly one grid instance (`start_m = m / BLOCK_M`); and
no instance of the grid stores any out-of-range row `r ≥ M`. -/
theorem claim_C10 (p : Params) (O DO : ℕ → ℕ → ℕ → ℕ → ℝ) (b h m : ℕ)
    (hBM : 0 < p.BLOCK_M) (hm : m < p.M) :
    deltaVal p (O b h) (DO b h) m =
      (∑ d ∈ Finset.range p.D, O b h m d * DO b h m d) ∧
    (preWritesDelta p (m / p.BLOCK_M) m ∧
      ∀ sm, sm < cdiv p.M p.BLOCK_M → preWritesDelta p sm m →
        sm = m / p.BLOCK_M) ∧
    (∀ r, p.M ≤ r → ∀ sm, sm < cdiv p.M p.BLOCK_M →
      ¬ preWritesDelta p sm r) := by
  refine ⟨?_, ⟨⟨Nat.div_mul_le_self m _, ?_, ?_⟩, ?_⟩, ?_⟩
  · unfold deltaVal qload
    exact Finset.sum_congr rfl fun d _ => by rw [if_pos hm, if_pos hm]
  · have hc : m / p.BLOCK_M * p.BLOCK_M = p.BLOCK_M * (m / p.BLOCK_M) :=
      Nat.mul_comm _ _
    have hdm := Nat.div_add_mod m p.BLOCK_M
    have hml := Nat.mod_lt m hBM
    omega
  · unfold preRowEnabled
    by_cases hcond : ¬ p.divM ∧ p.M < m / p.BLOCK_M * p.BLOCK_M + p.BLOCK_M
    · rw [if_pos hcond]
      exact hm
    · rw [if_neg hcond]
      trivial
  · intro sm _ hw
    exact (tile_index_eq hw.1 hw.2.1).symm
  · intro r hr sm hsm hw
    obtain ⟨hw1, hw2, hw3⟩ := hw
    unfold preRowEnabled at hw3
    by_cases hcond : ¬ p.divM ∧ p.M < sm * p.BLOCK_M + p.BLOCK_M
    · rw [if_pos hcond] at hw3
      omega
    · push_neg at hcond
      by_cases hdiv : p.divM
      · have hmul : cdiv p.M p.BLOCK_M * p.BLOCK_M = p.M :=
          cdiv_mul_of_dvd hBM hdiv
        have hsm1 : (sm + 1) * p.BLOCK_M ≤ cdiv p.M p.BLOCK_M * p.BLOCK_M :=
          mul_le_mul_right' hsm _
        have hexp : (sm + 1) * p.BLOCK_M = sm * p.BLOCK_M + p.BLOCK_M := by
          ring
        omega
      · have := hcond hdiv
        omega

theorem claim_C10_witness :
    (0 : ℕ) < 1 ∧ (0 : ℕ) < 1 ∧
    (deltaVal ⟨1, 0, 1, 1, 1, false, 1⟩ ((fun _ _ _ _ => (2 : ℝ)) 0 0)
        ((fun _ _ _ _ => (3 : ℝ)) 0 0) 0 =
      (∑ d ∈ Finset.range 1,
        (fun _ _ _ _ => (2 : ℝ)) 0 0 0 d * (fun _ _ _ _ => (3 : ℝ)) 0 0 0 d) ∧
    (preWritesDelta ⟨1, 0, 1, 1, 1, false, 1⟩ (0 / 1) 0 ∧
      ∀ sm, sm < cdiv 1 1 → preWritesDelta ⟨1, 0, 1, 1, 1, false, 1⟩ sm 0 →
        sm = 0 / 1) ∧
    (∀ r, (1 : ℕ) ≤ r → ∀ sm, sm < cdiv 1 1 →
      ¬ preWritesDelta ⟨1, 0, 1, 1, 1, false, 1⟩ sm r)) :=
  ⟨Nat.one_pos, Nat.one_pos,
    claim_C10 ⟨1, 0, 1, 1, 1, false, 1⟩ (fun _ _ _ _ => (2 : ℝ))
      (fun _ _ _ _ => (3 : ℝ)) 0 0 0 Nat.one_pos Nat.one_pos⟩

/-- C4: in `_bwd_q_kernel`, the boundary mask of the last query tile
compares the row against `M % BLOCK_M` instead of `M` (the forward mask
keeps all rows `< M` of the same tile); consequently, when `M % BLOCK_M ≠
0` and the last partial tile starts past row 0 (`BLOCK_M < M`), the mask
is false on every row of that tile, the q/do/delta/L loads of those rows
are masked out to 0, and their dQ rows are never stored, remaining at the
zero initialization of the dQ buffer. -/
theorem claim_C4 (p : Params) (Q K V DO : ℕ → ℕ → ℝ) (Lbuf Dbuf : ℕ → ℝ)
    (hBM : 0 < p.BLOCK_M) (hnd : ¬ p.divM) (hlast : p.BLOCK_M < p.M) :
    (∀ k, k < p.BLOCK_M →
      ¬ bwdQRowEnabled p (p.M / p.BLOCK_M)
        (p.M / p.BLOCK_M * p.BLOCK_M + k)) ∧
    (∀ r, p.M / p.BLOCK_M * p.BLOCK_M ≤ r → r < p.M →
      fwdRowEnabled p (p.M / p.BLOCK_M) r) ∧
    (∀ k d, k < p.BLOCK_M →
      qloadQ p Q (p.M / p.BLOCK_M * p.BLOCK_M + k) d = 0 ∧
      qloadQ p DO (p.M / p.BLOCK_M * p.BLOCK_M + k) d = 0 ∧
      rowloadQ p Lbuf (p.M / p.BLOCK_M * p.BLOCK_M + k) = 0 ∧
      rowloadQ p Dbuf (p.M / p.BLOCK_M * p.BLOCK_M + k) = 0) ∧
    (∀ k d, k < p.BLOCK_M →
      dqBuffer p Q K V DO Lbuf Dbuf (p.M / p.BLOCK_M * p.BLOCK_M + k) d
        = 0) := by
  have hstraddle : p.M < p.M / p.BLOCK_M * p.BLOCK_M + p.BLOCK_M := by
    have hc : p.M / p.BLOCK_M * p.BLOCK_M = p.BLOCK_M * (p.M / p.BLOCK_M) :=
      Nat.mul_comm _ _
    have hdm := Nat.div_add_mod p.M p.BLOCK_M
    have hml := Nat.mod_lt p.M hBM
    omega
  have hge1 : 1 ≤ p.M / p.BLOCK_M :=
    (Nat.one_le_div_iff hBM).2 (le_of_lt hlast)
  have hmask : ∀ k, k < p.BLOCK_M →
      ¬ bwdQRowEnabled p (p.M / p.BLOCK_M)
        (p.M / p.BLOCK_M * p.BLOCK_M + k) := by
    intro k _
    unfold bwdQRowEnabled
    rw [if_pos ⟨hnd, hstraddle⟩]
    have hmod := Nat.mod_lt p.M hBM
    have hrow : p.BLOCK_M ≤ p.M / p.BLOCK_M * p.BLOCK_M :=
      le_mul_of_one_le_left (Nat.zero_le _) hge1
    omega
  have htile : ∀ k, k < p.BLOCK_M →
      (p.M / p.BLOCK_M * p.BLOCK_M + k) / p.BLOCK_M = p.M / p.BLOCK_M := by
    intro k hk
    exact tile_index_eq (Nat.le_add_right _ _) (by omega)
  refine ⟨hmask, ?_, ?_, ?_⟩
  · intro r _ hr
    unfold fwdRowEnabled
    by_cases hcond : ¬ p.divM ∧
        p.M < p.M / p.BLOCK_M * p.BLOCK_M + p.BLOCK_M
    · rw [if_pos hcond]
      exact hr
    · rw [if_neg hcond]
      trivial
  · intro k d hk
    have hm := hmask k hk
    have ht := htile k hk
    refine ⟨?_, ?_, ?_, ?_⟩ <;>
      · first
          | (unfold qloadQ; rw [ht, if_neg hm])
          | (unfold rowloadQ; rw [ht, if_neg hm])
  · intro k d hk
    have hm := hmask k hk
    have ht := htile k hk
    unfold dqBuffer
    rw [ht, if_neg hm]

theorem claim_C4_witness :
    (0 : ℕ) < 2 ∧ ¬ (⟨3, 0, 1, 2, 1, false, 1⟩ : Params).divM ∧
      (2 : ℕ) < 3 ∧
    ((∀ k, k < 2 →
      ¬ bwdQRowEnabled ⟨3, 0, 1, 2, 1, false, 1⟩ (3 / 2) (3 / 2 * 2 + k)) ∧
    (∀ r, 3 / 2 * 2 ≤ r → r < 3 →
      fwdRowEnabled ⟨3, 0, 1, 2, 1, false, 1⟩ (3 / 2) r) ∧
    (∀ k d, k < 2 →
      qloadQ ⟨3, 0, 1, 2, 1, false, 1⟩ (fun _ _ => (1 : ℝ)) (3 / 2 * 2 + k) d = 0 ∧
      qloadQ ⟨3, 0, 1, 2, 1, false, 1⟩ (fun _ _ => (1 : ℝ)) (3 / 2 * 2 + k) d = 0 ∧
      rowloadQ ⟨3, 0, 1, 2, 1, false, 1⟩ (fun _ => (1 : ℝ)) (3 / 2 * 2 + k) = 0 ∧
      rowloadQ ⟨3, 0, 1, 2, 1, false, 1⟩ (fun _ => (1 : ℝ)) (3 / 2 * 2 + k) = 0) ∧
    (∀ k d, k < 2 →
      dqBuffer ⟨3, 0, 1, 2, 1, false, 1⟩ (fun _ _ => (1 : ℝ))
        (fun _ _ => (1 : ℝ)) (fun _ _ => (1 : ℝ)) (fun _ _ => (1 : ℝ))
        (fun _ => (1 : ℝ)) (fun _ => (1 : ℝ)) (3 / 2 * 2 + k) d = 0)) :=
  ⟨by decide, by decide, by decide,
    claim_C4 ⟨3, 0, 1, 2, 1, false, 1⟩ (fun _ _ => (1 : ℝ))
      (fun _ _ => (1 : ℝ)) (fun _ _ => (1 : ℝ)) (fun _ _ => (1 : ℝ))
      (fun _ => (1 : ℝ)) (fun _ => (1 : ℝ)) (by decide) (by decide)
      (by decide)⟩

/-- C5: in `_bwd_q_kernel`, the boundary mask of the last key tile
compares the column against `N % BLOCK_N` instead of `N`; when
`N % BLOCK_N ≠ 0` and the last partial key tile starts past column 0
(`BLOCK_N < N`), that mask is false on every column of the tile, `ds` is
zeroed over the whole tile, and the tile contributes nothing to `dq` — dQ
omits the gradient contribution of those key columns. -/
theorem claim_C5 (p : Params) (Q K V DO : ℕ → ℕ → ℝ) (Lbuf Dbuf : ℕ → ℝ)
    (hBN : 0 < p.BLOCK_N) (hnd : ¬ p.divN) (hlast : p.BLOCK_N < p.N) :
    (∀ k, k < p.BLOCK_N →
      ¬ bwdQColEnabled p (p.N / p.BLOCK_N * p.BLOCK_N)
        (p.N / p.BLOCK_N * p.BLOCK_N + k)) ∧
    (∀ r k, k < p.BLOCK_N →
      dsQ p Q K V DO Lbuf Dbuf r (p.N / p.BLOCK_N * p.BLOCK_N + k) = 0) ∧
    (∀ r d, dqTile p Q K V DO Lbuf Dbuf r d
      (p.N / p.BLOCK_N * p.BLOCK_N) = 0) := by
  have hstraddle : p.N < p.N / p.BLOCK_N * p.BLOCK_N + p.BLOCK_N := by
    have hc : p.N / p.BLOCK_N * p.BLOCK_N = p.BLOCK_N * (p.N / p.BLOCK_N) :=
      Nat.mul_comm _ _
    have hdm := Nat.div_add_mod p.N p.BLOCK_N
    have hml := Nat.mod_lt p.N hBN
    omega
  have hge1 : 1 ≤ p.N / p.BLOCK_N :=
    (Nat.one_le_div_iff hBN).2 (le_of_lt hlast)
  have htile : ∀ k, k < p.BLOCK_N →
      (p.N / p.BLOCK_N * p.BLOCK_N + k) / p.BLOCK_N = p.N / p.BLOCK_N := by
    intro k hk
    exact tile_index_eq (Nat.le_add_right _ _) (by omega)
  have hmask : ∀ k, k < p.BLOCK_N →
      ¬ bwdQColEnabled p (p.N / p.BLOCK_N * p.BLOCK_N)
        (p.N / p.BLOCK_N * p.BLOCK_N + k) := by
    intro k _
    unfold bwdQColEnabled
    rw [if_pos ⟨hnd, hstraddle⟩]
    have hmod := Nat.mod_lt p.N hBN
    have hrow : p.BLOCK_N ≤ p.N / p.BLOCK_N * p.BLOCK_N :=
      le_mul_of_one_le_left (Nat.zero_le _) hge1
    omega
  have hds : ∀ r k, k < p.BLOCK_N →
      dsQ p Q K V DO Lbuf Dbuf r (p.N / p.BLOCK_N * p.BLOCK_N + k) = 0 := by
    intro r k hk
    have hm := hmask k hk
    unfold dsQ
    rw [htile k hk]
    by_cases hc : p.causal = true
    · rw [if_pos hc]
      by_cases hcm : p.N / p.BLOCK_N * p.BLOCK_N + k ≤ p.P_SEQ + r
      · rw [if_pos hcm, if_neg hm]
      · rw [if_neg hcm]
    · rw [if_neg hc, if_neg hm]
  refine ⟨hmask, hds, ?_⟩
  intro r d
  unfold dqTile
  refine Finset.sum_eq_zero fun k hk => ?_
  rw [hds r k (Finset.mem_range.1 hk), zero_mul]

theorem claim_C5_witness :
    (0 : ℕ) < 2 ∧ ¬ (⟨1, 2, 1, 1, 2, false, 1⟩ : Params).divN ∧
      (2 : ℕ) < 3 ∧
    ((∀ k, k < 2 →
      ¬ bwdQColEnabled ⟨1, 2, 1, 1, 2, false, 1⟩ (3 / 2 * 2) (3 / 2 * 2 + k)) ∧
    (∀ r k, k < 2 →
      dsQ ⟨1, 2, 1, 1, 2, false, 1⟩ (fun _ _ => (1 : ℝ)) (fun _ _ => (1 : ℝ))
        (fun _ _ => (1 : ℝ)) (fun _ _ => (1 : ℝ)) (fun _ => (1 : ℝ))
        (fun _ => (1 : ℝ)) r (3 / 2 * 2 + k) = 0) ∧
    (∀ r d, dqTile ⟨1, 2, 1, 1, 2, false, 1⟩ (fun _ _ => (1 : ℝ))
        (fun _ _ => (1 : ℝ)) (fun _ _ => (1 : ℝ)) (fun _ _ => (1 : ℝ))
        (fun _ => (1 : ℝ)) (fun _ => (1 : ℝ)) r d (3 / 2 * 2) = 0)) :=
  ⟨by decide, by decide, by decide,
    claim_C5 ⟨1, 2, 1, 1, 2, false, 1⟩ (fun _ _ => (1 : ℝ))
      (fun _ _ => (1 : ℝ)) (fun _ _ => (1 : ℝ)) (fun _ _ => (1 : ℝ))
      (fun _ => (1 : ℝ)) (fun _ => (1 : ℝ)) (by decide) (by decide)
      (by decide)⟩

theorem loKV_eq_nat (p : Params) (kt : ℕ) :
    loKV p kt = ((loKVn p kt : ℕ) : ℤ) := by
  unfold loKV loKVn
  by_cases hc : p.causal = true
  · rw [if_pos hc, if_pos hc]
    have h1 : max ((kt * p.BLOCK_N : ℤ) - (p.P_SEQ : ℤ)) 0 =
        ((kt * p.BLOCK_N - p.P_SEQ : ℕ) : ℤ) := by
      omega
    rw [h1, Int.ofNat_mul, Int.ofNat_div]
    rfl
  · rw [if_neg hc, if_neg hc]
    rfl

/-- C9: in the causal backward KV kernel, `lo = (max(key_tile_start -
P_SEQ, 0) // BLOCK_M) * BLOCK_M`; every query row below `lo` is causally
masked against every column of the key tile; and the `(dk, dv)`
accumulators obtained by sweeping the query tiles from `lo` coincide, on
the key tile's columns, with those obtained by sweeping from query tile
0. -/
theorem claim_C9 (p : Params) (Q K V DO : ℕ → ℕ → ℝ) (Lbuf Dbuf : ℕ → ℝ)
    (kt : ℕ) (hc : p.causal = true) (hBM : 0 < p.BLOCK_M)
    (hkt : kt * p.BLOCK_N < p.N) :
    (loKV p kt = ((loKVn p kt : ℕ) : ℤ) ∧
      loKVn p kt = (kt * p.BLOCK_N - p.P_SEQ) / p.BLOCK_M * p.BLOCK_M) ∧
    (∀ m, m < loKVn p kt → ∀ n, kt * p.BLOCK_N ≤ n →
      n < kt * p.BLOCK_N + p.BLOCK_N → p.P_SEQ + m < n) ∧
    (∀ n, kt * p.BLOCK_N ≤ n → n < kt * p.BLOCK_N + p.BLOCK_N → ∀ d,
      (kvSweep p Q K V DO Lbuf Dbuf (loKVn p kt)
          (cdiv (p.M - loKVn p kt) p.BLOCK_M)).1 n d =
        (kvSweep p Q K V DO Lbuf Dbuf 0 (cdiv p.M p.BLOCK_M)).1 n d ∧
      (kvSweep p Q K V DO Lbuf Dbuf (loKVn p kt)
          (cdiv (p.M - loKVn p kt) p.BLOCK_M)).2 n d =
        (kvSweep p Q K V DO Lbuf Dbuf 0 (cdiv p.M p.BLOCK_M)).2 n d) := by
  have hlo_e : loKVn p kt =
      (kt * p.BLOCK_N - p.P_SEQ) / p.BLOCK_M * p.BLOCK_M := by
    unfold loKVn
    rw [if_pos hc]
  have hdivle : (kt * p.BLOCK_N - p.P_SEQ) / p.BLOCK_M * p.BLOCK_M ≤
      kt * p.BLOCK_N - p.P_SEQ := Nat.div_mul_le_self _ _
  have hN : p.N = p.M + p.P_SEQ := rfl
  have hmask : ∀ m, m < loKVn p kt → ∀ n, kt * p.BLOCK_N ≤ n →
      n < kt * p.BLOCK_N + p.BLOCK_N → p.P_SEQ + m < n := by
    intro m hm n hn1 _
    rw [hlo_e] at hm
    omega
  refine ⟨⟨loKV_eq_nat p kt, hlo_e⟩, hmask, ?_⟩
  -- rows strictly below lo make a kv step a no-op on the tile's columns
  have hstep0 : ∀ sm, sm + p.BLOCK_M ≤ loKVn p kt →
      ∀ st n, kt * p.BLOCK_N ≤ n → n < kt * p.BLOCK_N + p.BLOCK_N → ∀ d,
      (kvStep p Q K V DO Lbuf Dbuf sm st).1 n d = st.1 n d ∧
      (kvStep p Q K V DO Lbuf Dbuf sm st).2 n d = st.2 n d := by
    intro sm hsm st n hn1 hn2 d
    have hrows : ∀ k, k < p.BLOCK_M → ¬ (n ≤ p.P_SEQ + (sm + k)) := by
      intro k hk
      have := hmask (sm + k) (by omega) n hn1 hn2
      omega
    constructor
    · show st.1 n d + (∑ k ∈ Finset.range p.BLOCK_M,
          dsKV p Q K V DO Lbuf Dbuf (sm + k) n * qload p Q (sm + k) d) =
        st.1 n d
      have h0 : (∑ k ∈ Finset.range p.BLOCK_M,
          dsKV p Q K V DO Lbuf Dbuf (sm + k) n * qload p Q (sm + k) d) = 0 := by
        refine Finset.sum_eq_zero fun k hk => ?_
        have hk' := Finset.mem_range.1 hk
        unfold dsKV
        rw [if_pos hc, if_neg (hrows k hk'), zero_mul]
      rw [h0, add_zero]
    · show st.2 n d + (∑ k ∈ Finset.range p.BLOCK_M,
          bwdKVp p Q K Lbuf (sm + k) n * qload p DO (sm + k) d) =
        st.2 n d
      have h0 : (∑ k ∈ Finset.range p.BLOCK_M,
          bwdKVp p Q K Lbuf (sm + k) n * qload p DO (sm + k) d) = 0 := by
        refine Finset.sum_eq_zero fun k hk => ?_
        have hk' := Finset.mem_range.1 hk
        unfold bwdKVp
        rw [if_pos hc, if_neg (hrows k hk'), zero_mul]
      rw [h0, add_zero]
  -- number of whole skipped tiles
  have hSdef : loKVn p kt =
      (kt * p.BLOCK_N - p.P_SEQ) / p.BLOCK_M * p.BLOCK_M := hlo_e
  have hloM : loKVn p kt ≤ p.M := by
    rw [hlo_e]
    omega
  -- sweeping the skipped prefix from 0 leaves the tile columns at zero
  have hzero : ∀ c, c * p.BLOCK_M ≤ loKVn p kt →
      ∀ n, kt * p.BLOCK_N ≤ n → n < kt * p.BLOCK_N + p.BLOCK_N → ∀ d,
      (kvSweep p Q K V DO Lbuf Dbuf 0 c).1 n d = 0 ∧
      (kvSweep p Q K V DO Lbuf Dbuf 0 c).2 n d = 0 := by
    intro c
    induction c with
    | zero => exact fun _ n _ _ d => ⟨rfl, rfl⟩
    | succ c ih =>
        intro hcle n hn1 hn2 d
        have hexp : (c + 1) * p.BLOCK_M = c * p.BLOCK_M + p.BLOCK_M := by
          ring
        have hc' : c * p.BLOCK_M ≤ loKVn p kt := by omega
        have hstep := hstep0 (0 + c * p.BLOCK_M) (by omega)
          (kvSweep p Q K V DO Lbuf Dbuf 0 c) n hn1 hn2 d
        have hih := ih hc' n hn1 hn2 d
        exact ⟨hstep.1.trans hih.1, hstep.2.trans hih.2⟩
  -- the two sweeps agree on the tile columns
  have hshift : ∀ R, ∀ n, kt * p.BLOCK_N ≤ n →
      n < kt * p.BLOCK_N + p.BLOCK_N → ∀ d,
      (kvSweep p Q K V DO Lbuf Dbuf (loKVn p kt) R).1 n d =
        (kvSweep p Q K V DO Lbuf Dbuf 0
          ((kt * p.BLOCK_N - p.P_SEQ) / p.BLOCK_M + R)).1 n d ∧
      (kvSweep p Q K V DO Lbuf Dbuf (loKVn p kt) R).2 n d =
        (kvSweep p Q K V DO Lbuf Dbuf 0
          ((kt * p.BLOCK_N - p.P_SEQ) / p.BLOCK_M + R)).2 n d := by
    intro R
    induction R with
    | zero =>
        intro n hn1 hn2 d
        have hz := hzero ((kt * p.BLOCK_N - p.P_SEQ) / p.BLOCK_M)
          (by rw [hlo_e]) n hn1 hn2 d
        exact ⟨hz.1.symm, hz.2.symm⟩
    | succ R ih =>
        intro n hn1 hn2 d
        have hih := ih n hn1 hn2 d
        have harg : loKVn p kt + R * p.BLOCK_M =
            0 + ((kt * p.BLOCK_N - p.P_SEQ) / p.BLOCK_M + R) * p.BLOCK_M := by
          rw [hlo_e]
          ring
        constructor
        · show (kvSweep p Q K V DO Lbuf Dbuf (loKVn p kt) R).1 n d +
              (∑ k ∈ Finset.range p.BLOCK_M,
                dsKV p Q K V DO Lbuf Dbuf (loKVn p kt + R * p.BLOCK_M + k) n *
                  qload p Q (loKVn p kt + R * p.BLOCK_M + k) d) = _
          rw [hih.1, harg]
          rfl
        · show (kvSweep p Q K V DO Lbuf Dbuf (loKVn p kt) R).2 n d +
              (∑ k ∈ Finset.range p.BLOCK_M,
                bwdKVp p Q K Lbuf (loKVn p kt + R * p.BLOCK_M + k) n *
                  qload p DO (loKVn p kt + R * p.BLOCK_M + k) d) = _
          rw [hih.2, harg]
          rfl
  intro n hn1 hn2 d
  have hcnt : cdiv p.M p.BLOCK_M =
      (kt * p.BLOCK_N - p.P_SEQ) / p.BLOCK_M +
        cdiv (p.M - loKVn p kt) p.BLOCK_M := by
    have h1 := cdiv_add_mul_left ((kt * p.BLOCK_N - p.P_SEQ) / p.BLOCK_M)
      (p.M - loKVn p kt) hBM
    have h2 : (kt * p.BLOCK_N - p.P_SEQ) / p.BLOCK_M * p.BLOCK_M +
        (p.M - loKVn p kt) = p.M := by
      rw [← hlo_e]
      omega
    rw [← h1, h2]
  have hsh := hshift (cdiv (p.M - loKVn p kt) p.BLOCK_M) n hn1 hn2 d
  rw [hcnt]
  exact hsh

theorem claim_C9_witness :
    (⟨2, 1, 1, 1, 2, true, 1⟩ : Params).causal = true ∧ (0 : ℕ) < 1 ∧
      (1 * 2 : ℕ) < 3 ∧
    ((loKV ⟨2, 1, 1, 1, 2, true, 1⟩ 1 =
        ((loKVn ⟨2, 1, 1, 1, 2, true, 1⟩ 1 : ℕ) : ℤ) ∧
      loKVn ⟨2, 1, 1, 1, 2, true, 1⟩ 1 = (1 * 2 - 1) / 1 * 1) ∧
    (∀ m, m < loKVn ⟨2, 1, 1, 1, 2, true, 1⟩ 1 → ∀ n, 1 * 2 ≤ n →
      n < 1 * 2 + 2 → 1 + m < n) ∧
    (∀ n, 1 * 2 ≤ n → n < 1 * 2 + 2 → ∀ d,
      (kvSweep ⟨2, 1, 1, 1, 2, true, 1⟩ (fun _ _ => (1 : ℝ))
          (fun _ _ => (1 : ℝ)) (fun _ _ => (1 : ℝ)) (fun _ _ => (1 : ℝ))
          (fun _ => (1 : ℝ)) (fun _ => (1 : ℝ))
          (loKVn ⟨2, 1, 1, 1, 2, true, 1⟩ 1)
          (cdiv (2 - loKVn ⟨2, 1, 1, 1, 2, true, 1⟩ 1) 1)).1 n d =
        (kvSweep ⟨2, 1, 1, 1, 2, true, 1⟩ (fun _ _ => (1 : ℝ))
          (fun _ _ => (1 : ℝ)) (fun _ _ => (1 : ℝ)) (fun _ _ => (1 : ℝ))
          (fun _ => (1 : ℝ)) (fun _ => (1 : ℝ)) 0 (cdiv 2 1)).1 n d ∧
      (kvSweep ⟨2, 1, 1, 1, 2, true, 1⟩ (fun _ _ => (1 : ℝ))
          (fun _ _ => (1 : ℝ)) (fun _ _ => (1 : ℝ)) (fun _ _ => (1 : ℝ))
          (fun _ => (1 : ℝ)) (fun _ => (1 : ℝ))
          (loKVn ⟨2, 1, 1, 1, 2, true, 1⟩ 1)
          (cdiv (2 - loKVn ⟨2, 1, 1, 1, 2, true, 1⟩ 1) 1)).2 n d =
        (kvSweep ⟨2, 1, 1, 1, 2, true, 1⟩ (fun _ _ => (1 : ℝ))
          (fun _ _ => (1 : ℝ)) (fun _ _ => (1 : ℝ)) (fun _ _ => (1 : ℝ))
          (fun _ => (1 : ℝ)) (fun _ => (1 : ℝ)) 0 (cdiv 2 1)).2 n d)) :=
  ⟨rfl, by decide, by decide,
    claim_C9 ⟨2, 1, 1, 1, 2, true, 1⟩ (fun _ _ => (1 : ℝ))
      (fun _ _ => (1 : ℝ)) (fun _ _ => (1 : ℝ)) (fun _ _ => (1 : ℝ))
      (fun _ => (1 : ℝ)) (fun _ => (1 : ℝ)) 1 rfl (by decide) (by decide)⟩

end FlagAttn
